import Mathlib

/-!
Verification of the save-payload checking logic of
`packages/core/selenium_test/steps/saving.py`: the payload repair regex
`last_obj_re`, the browser-conditional attribute-order normalizer, the
separator removal and trimming of the fetched artifact, and the
`cond` comparison of the decoded envelope against the expected table.
-/

set_option autoImplicit false

namespace WedSaving

/-! ### A backtracking regex matcher

The compiled patterns of the source use literal characters, `.` (any
character except newline), the class `[^"]`, greedy and lazy Kleene stars
of such single-character classes, and capture groups.  The matcher below
implements Python backtracking semantics for exactly these constructs. -/

/-- Regular-expression abstract syntax covering the constructs appearing in
the compiled patterns of the source file.  Stars apply to single-character
classes only, which is all the source patterns need. -/
inductive RE where
  | eps : RE
  | ch : Char → RE
  | starG : (Char → Bool) → RE
  | starL : (Char → Bool) → RE
  | seq : RE → RE → RE
  | group : RE → RE

/-- Captured-group list: the text consumed by each completed group, in order. -/
abbrev Caps := List (List Char)

/-- Greedy star over a character class, continuation-passing style: prefer
to consume a character, fall back to stopping only when the rest of the
pattern fails (Python greedy `*` behaviour). -/
def starGaux {A : Type} (p : Char → Bool) (k : List Char → Option A) : List Char → Option A
  | [] => k []
  | c :: cs =>
    if p c then
      match starGaux p k cs with
      | some r => some r
      | none => k (c :: cs)
    else k (c :: cs)

/-- Lazy star over a character class: try the rest of the pattern first,
consume a character only when it fails (Python `*?` behaviour). -/
def starLaux {A : Type} (p : Char → Bool) (k : List Char → Option A) : List Char → Option A
  | [] => k []
  | c :: cs =>
    match k (c :: cs) with
    | some r => some r
    | none => if p c then starLaux p k cs else none

/-- Backtracking matcher.  `mat re s k caps` tries to match `re` at the
start of `s`; for each way of matching it calls the continuation `k` with
the remaining input and the capture list extended by completed groups,
returning the first success. -/
def mat {A : Type} : RE → List Char → (List Char → Caps → Option A) → Caps → Option A
  | .eps, s, k, caps => k s caps
  | .ch c, s, k, caps =>
    match s with
    | [] => none
    | x :: xs => if x = c then k xs caps else none
  | .starG p, s, k, caps => starGaux p (fun s' => k s' caps) s
  | .starL p, s, k, caps => starLaux p (fun s' => k s' caps) s
  | .seq a b, s, k, caps => mat a s (fun s' caps' => mat b s' k caps') caps
  | .group r, s, k, caps =>
    mat r s (fun s' caps' => k s' (caps' ++ [s.take (s.length - s'.length)])) caps

/-- Match `re` at the very start of `s`; on success return the number of
characters consumed together with the captures. -/
def matchAt (re : RE) (s : List Char) : Option (Nat × Caps) :=
  mat re s (fun rest caps => some (s.length - rest.length, caps)) []

/-- Leftmost search (the scan of `re.search` / `re.sub`): try to match at
each position in turn, reporting the absolute start offset `i`, the match
length and the captures. -/
def searchAux : RE → List Char → Nat → Option (Nat × Nat × Caps)
  | re, s, i =>
    match matchAt re s with
    | some (len, caps) => some (i, len, caps)
    | none =>
      match s with
      | [] => none
      | _ :: cs => searchAux re cs (i + 1)

/-- Leftmost match of `re` in `s`. -/
def reSearch (re : RE) (s : List Char) : Option (Nat × Nat × Caps) :=
  searchAux re s 0

/-- Fuel-indexed core of `re.sub`: replace every non-overlapping match,
scanning left to right and continuing after each replaced match.  The fuel
only serves termination; `pySub` supplies enough fuel for every input
because each step consumes at least one character of `s`. -/
def subF (re : RE) (t : Caps → List Char) : Nat → List Char → List Char
  | 0, s => s
  | f + 1, s =>
    match reSearch re s with
    | none => s
    | some (i, len, caps) =>
      if len = 0 then
        match s.drop i with
        | [] => s.take i ++ t caps
        | c :: rest => s.take i ++ t caps ++ c :: subF re t f rest
      else s.take i ++ t caps ++ subF re t f (s.drop (i + len))

/-- Python `re.sub(pattern, template, s)` for the patterns of the source. -/
def pySub (re : RE) (t : Caps → List Char) (s : List Char) : List Char :=
  subF re t (s.length + 1) s

/-! ### The compiled patterns of `saving.py` (lines 21-29) -/

/-- The class `[^"]`. -/
def nq (c : Char) : Bool := c ≠ '"'

/-- The class `.`: any character but a newline. -/
def dotc (c : Char) : Bool := c ≠ '\n'

/-- A sequence of literal characters. -/
def restr (l : List Char) : RE := l.foldr (fun c r => .seq (.ch c) r) .eps

/-- `last_obj_re = re.compile('.*}{')` (line 21). -/
def last_obj_re : RE := .seq (.starG dotc) (restr [ '}', '{' ])

/-- The group `(name="[^"]*?")` from which all flip patterns are built. -/
def attrG (name : List Char) : RE :=
  .group (.seq (restr (name ++ [ '=', '"' ])) (.seq (.starL nq) (.ch '"')))

/-- Two attribute groups separated by one space: the shape of
`flip_rend_style_re`, `flip_xmlns_re` and `flip_moo_re`. -/
def flip2re (n1 n2 : List Char) : RE :=
  .seq (attrG n1) (.seq (.ch ' ') (attrG n2))

/-- `flip_rend_style_re = re.compile(r'(style="[^"]*?") (rend="[^"]*?")')` (line 23). -/
def flip_rend_style_re : RE := flip2re [ 's', 't', 'y', 'l', 'e' ] [ 'r', 'e', 'n', 'd' ]

/-- `flip_xmlns_re = re.compile(r'(xmlns:math="[^"]*?") (xmlns="[^"]*?")')` (line 24). -/
def flip_xmlns_re : RE :=
  flip2re [ 'x', 'm', 'l', 'n', 's', ':', 'm', 'a', 't', 'h' ] [ 'x', 'm', 'l', 'n', 's' ]

/-- `flip_div_attrs_re`: the four attribute groups
`(type="[^"]*?") (rend="[^"]*?") (rendition="[^"]*?") (subtype="[^"]*?")`
(lines 25-27). -/
def flip_div_attrs_re : RE :=
  .seq (attrG [ 't', 'y', 'p', 'e' ]) (.seq (.ch ' ')
    (.seq (attrG [ 'r', 'e', 'n', 'd' ]) (.seq (.ch ' ')
      (.seq (attrG [ 'r', 'e', 'n', 'd', 'i', 't', 'i', 'o', 'n' ]) (.seq (.ch ' ')
        (attrG [ 's', 'u', 'b', 't', 'y', 'p', 'e' ]))))))

/-- `flip_moo_re = re.compile(r'(moo="[^"]*?") (MOO="[^"]*?")')` (line 29). -/
def flip_moo_re : RE := flip2re [ 'm', 'o', 'o' ] [ 'M', 'O', 'O' ]

/-- Replacement template `'{'` of `last_obj_re.sub('{', text)` (line 91). -/
def tmplBrace (_ : Caps) : List Char := [ '{' ]

/-- Replacement template `r'\2 \1'` of the two-attribute flips. -/
def tmplSwap (caps : Caps) : List Char := caps.getD 1 [] ++ ' ' :: caps.getD 0 []

/-- Replacement template `r'\1 \4 \2 \3'` of the div-attributes rule. -/
def tmplDiv (caps : Caps) : List Char :=
  caps.getD 0 [] ++ ' ' :: caps.getD 3 [] ++ ' ' :: caps.getD 1 [] ++ ' ' :: caps.getD 2 []

/-! ### The Cross-Browser Output Normalizer (lines 94-107) -/

/-- The rewrites applied to `actual["data"]` when `util.ie` holds
(lines 95-101): rend/style flip, then xmlns flip, then div-attribute
reorder, in that order. -/
def normalizeIE (s : List Char) : List Char :=
  pySub flip_div_attrs_re tmplDiv
    (pySub flip_xmlns_re tmplSwap
      (pySub flip_rend_style_re tmplSwap s))

/-- The rewrites applied when `util.edge` holds (lines 102-107): rend/style
flip, then div-attribute reorder, then moo/MOO flip, in that order. -/
def normalizeEdge (s : List Char) : List Char :=
  pySub flip_moo_re tmplSwap
    (pySub flip_div_attrs_re tmplDiv
      (pySub flip_rend_style_re tmplSwap s))

/-- The Cross-Browser Output Normalizer as a function of the browser
identity flags (`util.ie`, `util.edge`).  The default identity applies no
rewrite at all. -/
def normalizeData (ie edge : Bool) (s : List Char) : List Char :=
  if ie then normalizeIE s else if edge then normalizeEdge s else s

/-- The exact text of an adjacent attribute pair `n1="X" n2="Y"`. -/
def pairStr (n1 X n2 Y : List Char) : List Char :=
  n1 ++ '=' :: '"' :: X ++ '"' :: ' ' :: n2 ++ '=' :: '"' :: Y ++ [ '"' ]

/-- A data string carrying attribute pairs `n1="Xi" n2="Yi"` between
connecting chunks: the layout quantifying over every occurrence of the
pair.  `embedPairs n1 n2 c0 [(X1, Y1, c1), ..., (Xn, Yn, cn)]` is
`c0 n1="X1" n2="Y1" c1 ... n1="Xn" n2="Yn" cn`. -/
def embedPairs (n1 n2 : List Char) :
    List Char → List (List Char × List Char × List Char) → List Char
  | c0, [] => c0
  | c0, (X, Y, c) :: rest => c0 ++ (pairStr n1 X n2 Y ++ embedPairs n1 n2 c rest)

/-- A string is in canonical attribute order when none of the four flip
patterns matches anywhere in it, so no rule has anything to rewrite. -/
def noFlipMatch (s : List Char) : Prop :=
  reSearch flip_rend_style_re s = none ∧ reSearch flip_xmlns_re s = none ∧
  reSearch flip_div_attrs_re s = none ∧ reSearch flip_moo_re s = none

/-! ### Artifact text processing (lines 89-91) -/

/-- The separator marker `'\n***\n'`. -/
def sepMarker : List Char := [ '\n', '*', '*', '*', '\n' ]

/-- Fuel-indexed core of `str.replace`; the fuel (the input length
suffices, each step consumes at least one character) only serves
termination. -/
def replaceSepF : Nat → List Char → List Char
  | 0, s => s
  | _ + 1, [] => []
  | f + 1, c :: cs =>
    if sepMarker.isPrefixOf (c :: cs) then replaceSepF f ((c :: cs).drop sepMarker.length)
    else c :: replaceSepF f cs

/-- `text.replace('\n***\n', '')`: Python `str.replace` removes the
leftmost occurrence and continues scanning after it, in a single pass. -/
def replaceSep (s : List Char) : List Char := replaceSepF s.length s

/-- The artifact layout the saver produces: payload chunks joined by the
`'\n***\n'` marker. -/
def interMarker : List (List Char) → List Char
  | [] => []
  | [c] => c
  | c :: rest => c ++ sepMarker ++ interMarker rest

/-- The characters Python `str.strip()` removes (the ASCII `str.isspace` set). -/
def pySpace (c : Char) : Bool :=
  c = ' ' || c = '\t' || c = '\n' || c = '\r' || c = '\x0b' || c = '\x0c'

/-- Python `str.strip()`. -/
def pyStrip (s : List Char) : List Char :=
  ((s.dropWhile pySpace).reverse.dropWhile pySpace).reverse

/-- Lines 89-91: the processed text fed to `json.loads` — marker removal,
strip, then the brace-boundary repair `last_obj_re.sub('{', text)`. -/
def processText (t : List Char) : List Char :=
  pySub last_obj_re tmplBrace (pyStrip (replaceSep t))

/-- Boolean occurrence test: does `pat` occur contiguously inside the list? -/
def containsSeq (pat : List Char) : List Char → Bool
  | [] => pat.isPrefixOf []
  | c :: cs => pat.isPrefixOf (c :: cs) || containsSeq pat cs

/-! ### The decoded payload envelope and the `cond` comparison -/

/-- JSON values, as far as the save envelope needs them. -/
inductive JVal where
  | str : List Char → JVal
  | num : Int → JVal
  | bool : Bool → JVal
  | null : JVal
  deriving DecidableEq

/-- A decoded JSON object (the result of `json.loads`): insertion-ordered
key/value pairs.  The operations below mirror the Python `dict`
operations the source uses. -/
abbrev Dict := List (List Char × JVal)

/-- `d[k]` as a total lookup: the first binding of `k`. -/
def dictLookup (d : Dict) (k : List Char) : Option JVal :=
  match d.find? (fun p => p.1 = k) with
  | some p => some p.2
  | none => none

/-- `k in d`. -/
def dictMem (d : Dict) (k : List Char) : Bool := d.any (fun p => p.1 = k)

/-- Python `dict.__eq__`: same key set, equal values; order-insensitive. -/
def dictEq (d e : Dict) : Bool :=
  d.all (fun p => dictLookup e p.1 = dictLookup d p.1) &&
  e.all (fun p => dictLookup d p.1 = dictLookup e p.1)

/-- Removal of every binding of `k` (the effect of `del d[k]` on a decoded
object, whose keys are unique). -/
def dictErase (d : Dict) (k : List Char) : Dict := d.filter (fun p => p.1 ≠ k)

/-- Python `del d[k]`: `KeyError` (modelled as `none`) when `k` is absent. -/
def pyDelItem (d : Dict) (k : List Char) : Option Dict :=
  if dictMem d k then some (dictErase d k) else none

/-- Python `d[k] = v`: replace the binding in place, else append it. -/
def dictSet (d : Dict) (k : List Char) (v : JVal) : Dict :=
  if dictMem d k then d.map (fun p => if p.1 = k then (k, v) else p) else d ++ [(k, v)]

def kCommand : List Char := String.toList "command"
def kVersion : List Char := String.toList "version"
def kData : List Char := String.toList "data"

/-- The `expected` object built by `step_impl` (lines 81-84). -/
def expectedDict (expData : List Char) : Dict :=
  [ (kCommand, JVal.str (String.toList "save")), (kData, JVal.str expData) ]

/-- Lines 94-107 of `cond`: when `"data" in actual`, rewrite
`actual["data"]` through the rules of the browser identity; a `TypeError`
from `re.sub` on a non-string value is modelled as `none`. -/
def normStep (ie edge : Bool) (actual1 : Dict) : Option Dict :=
  if dictMem actual1 kData then
    if ie then
      match dictLookup actual1 kData with
      | some (JVal.str s) => some (dictSet actual1 kData (JVal.str (normalizeIE s)))
      | _ => none
    else if edge then
      match dictLookup actual1 kData with
      | some (JVal.str s) => some (dictSet actual1 kData (JVal.str (normalizeEdge s)))
      | _ => none
    else some actual1
  else some actual1

/-- The body of `cond` from the decoded payload object on (lines 91-109):
delete `version` unconditionally (`KeyError`, modelled `none`, when it is
absent), apply the browser-conditional normalization to `actual["data"]`
when that key exists, then compare with `expected`.  Returns the `Result`
success flag together with the mutated `actual` (the diagnostic payload). -/
def condDict (ie edge : Bool) (expData : List Char) (actual0 : Dict) : Option (Bool × Dict) :=
  match pyDelItem actual0 kVersion with
  | none => none
  | some actual1 =>
    match normStep ie edge actual1 with
    | none => none
    | some actual2 => some (dictEq actual2 (expectedDict expData), actual2)

/-! ### The scenario step (lines 31-116) -/

/-- `_SCENARIO_TO_EXPECTED_DATA` (lines 31-77) as a lookup function;
`none` is Python's `KeyError` on a missing scenario name. -/
def scenario_to_expected_data (name : String) : Option (List Char) :=
  if name = "serializes namespaces properly" then
    some (String.toList "<TEI xmlns=\"http://www.tei-c.org/ns/1.0\"><teiHeader><fileDesc><titleStmt><title>abcd</title></titleStmt><publicationStmt><p/></publicationStmt><sourceDesc><p MOO=\"a\" moo=\"b\"/></sourceDesc></fileDesc></teiHeader><text><body><p><hi/>Blah blah <term>blah</term> blah.</p><p><term>blah</term></p><p><ref/></p><p><hi>a</hi><hi>b</hi>c</p><p>abcdefghij</p><p>aaaaaaaaaaaaaaaaaaaaaaaaaaaaaaaaaaaaaaaaaaaaa<hi>aaaaaaaa aaaaaaaaaaa</hi>abcd</p><p>abcd abcd abcd abcd abcd abcd abcd abcd abcd abcd abcd abcd abcd abcd abcd abcd abcd abcd abcd abcd abcd abcd abcd abcd abcd abcd abcd abcd abcd abcd abcd abcd abcd abcd abcd abcd abcd abcd abcd abcd abcd abcd abcd abcd abcd abcd abcd abcd abcd abcd abcd abcd abcd abcd abcd abcd abcd abcd abcd abcd</p><p rend=\"rend_value\" style=\"style_value\">Blah</p><p rend=\"abc\">Blah</p><p part=\"\">Blah</p><div sample=\"\"/><p rend=\"foo\"/><p rend=\"wrap\">Something</p><p><monogr>This paragraph and its content are designed to test how error markers are shown for inline elements that end up spanning multiple lines. This paragraph and its content are designed to test how error markers are shown for inline elements that end up spanning multiple lines. This paragraph and its content are designed to test how error markers are shown for inline elements that end up spanning multiple lines.</monogr></p><p n=\"\">P</p><div type=\"a\" subtype=\"b\" rend=\"foo\" rendition=\"bar\"/><div xxx=\"x\">This div has a bad attribute.</div><list rend=\"list\"><item>a</item><item>b</item><item>c</item></list><?pi fnord?><!-- a comment --><?pi something?><!-- comment content --></body></text></TEI>")
  else if name = "serializes multiple top namespaces properly" then
    some (String.toList "<TEI xmlns=\"http://www.tei-c.org/ns/1.0\" xmlns:math=\"http://www.w3.org/1998/Math/MathML\"><teiHeader><fileDesc><titleStmt><title/></titleStmt><publicationStmt><p/></publicationStmt><sourceDesc><p/></sourceDesc></fileDesc></teiHeader><text><body><p><hi/><formula><math:math/></formula></p></body></text></TEI>")
  else none

/-- Outcome of the scenario verifier step. -/
inductive StepOutcome where
  | scenarioNotFound : StepOutcome
  | passed : StepOutcome
  | failedAssert : Dict → Dict → StepOutcome
  | timedOut : StepOutcome
  deriving DecidableEq

/-- Modelled from the spec: `selenic.util.Condition(util, cond).wait()`,
the Polling Condition Evaluator of spec section 4.1, is not part of this
repository.  It evaluates the predicate repeatedly (attempt indices
0, 1, ...), treats an exception during evaluation (`none`) as
not-yet-satisfied, returns the first successful result, and after the
timeout (`fuel` exhausted) yields the last observed result as the
diagnostic payload.  The `Nat` component counts predicate evaluations. -/
def waitPoll (pred : Nat → Option (Bool × Dict)) : Nat → Nat → Option (Bool × Dict) × Nat
  | 0, n => (none, n)
  | f + 1, n =>
    match pred n with
    | some (true, a) => (some (true, a), n + 1)
    | r => if f = 0 then (r, n + 1) else waitPoll pred f (n + 1)

/-- The `step_impl` of `@then('the data saved is properly serialized')`
(lines 80-116): look the scenario name up in the expected-data table
(Python raises `KeyError` there, before `cond` is even defined), then poll
`cond` and report.  `payloads i` abstracts the `i`-th fetched and decoded
artifact (`requests.get`, the `processText` stage and `json.loads`);
`none` stands for any exception inside `cond`.  The `Nat` component is the
number of times the polled condition ran. -/
def step_data_saved (name : String) (ie edge : Bool)
    (payloads : Nat → Option Dict) (fuel : Nat) : StepOutcome × Nat :=
  match scenario_to_expected_data name with
  | none => (StepOutcome.scenarioNotFound, 0)
  | some expData =>
    match waitPoll (fun i => (payloads i).bind (condDict ie edge expData)) fuel 0 with
    | (some (true, _), n) => (StepOutcome.passed, n)
    | (some (false, a), n) => (StepOutcome.failedAssert a (expectedDict expData), n)
    | (none, n) => (StepOutcome.timedOut, n)


/-! ### Basic lemmas about the matcher -/

/-- Matching a literal sequence at the front of `l ++ rest` consumes `l`. -/
theorem mat_restr_append {A : Type} (l : List Char) : ∀ (rest : List Char)
    (k : List Char → Caps → Option A) (caps : Caps),
    mat (restr l) (l ++ rest) k caps = k rest caps := by
  induction l with
  | nil => intro rest k caps; rfl
  | cons c l ih =>
    intro rest k caps
    show mat (.seq (.ch c) (restr l)) (c :: (l ++ rest)) k caps = k rest caps
    simp only [mat, if_true]
    exact ih rest k caps

/-- A successful literal-sequence match forces the input to start with it. -/
theorem mat_restr_inv {A : Type} (l : List Char) : ∀ (s : List Char)
    (k : List Char → Caps → Option A) (caps : Caps) (r : A),
    mat (restr l) s k caps = some r → ∃ rest, s = l ++ rest ∧ k rest caps = some r := by
  induction l with
  | nil => intro s k caps r h; exact ⟨s, rfl, h⟩
  | cons c l ih =>
    intro s k caps r h
    cases s with
    | nil => simp [restr, mat] at h
    | cons x xs =>
      simp only [restr, List.foldr_cons, mat] at h
      by_cases hx : x = c
      · subst hx
        simp only [if_pos rfl] at h
        obtain ⟨rest, hrest, hk⟩ := ih xs k caps r h
        exact ⟨rest, by simp [hrest], hk⟩
      · simp [hx] at h

/-- A successful lazy star consumed a run of class characters. -/
theorem starLaux_inv {A : Type} (p : Char → Bool) (k : List Char → Option A) :
    ∀ (s : List Char) (r : A), starLaux p k s = some r →
    ∃ pre rest, s = pre ++ rest ∧ (∀ c ∈ pre, p c = true) ∧ k rest = some r := by
  intro s
  induction s with
  | nil => intro r h; exact ⟨[], [], rfl, by simp, h⟩
  | cons c cs ih =>
    intro r h
    simp only [starLaux] at h
    cases hk : k (c :: cs) with
    | some r' => rw [hk] at h; exact ⟨[], c :: cs, rfl, by simp, by simp_all⟩
    | none =>
      rw [hk] at h
      by_cases hp : p c = true
      · rw [if_pos hp] at h
        obtain ⟨pre, rest, hs, hpre, hkr⟩ := ih r h
        refine ⟨c :: pre, rest, by simp [hs], ?_, hkr⟩
        intro x hx
        rcases List.mem_cons.mp hx with hx | hx
        · subst hx; exact hp
        · exact hpre x hx
      · simp [hp] at h

/-- A successful greedy star consumed a run of class characters. -/
theorem starGaux_inv {A : Type} (p : Char → Bool) (k : List Char → Option A) :
    ∀ (s : List Char) (r : A), starGaux p k s = some r →
    ∃ pre rest, s = pre ++ rest ∧ (∀ c ∈ pre, p c = true) ∧ k rest = some r := by
  intro s
  induction s with
  | nil => intro r h; exact ⟨[], [], rfl, by simp, h⟩
  | cons c cs ih =>
    intro r h
    simp only [starGaux] at h
    by_cases hp : p c = true
    · rw [if_pos hp] at h
      cases hg : starGaux p k cs with
      | some r' =>
        rw [hg] at h
        obtain ⟨pre, rest, hs, hpre, hkr⟩ := ih r (by simp_all)
        refine ⟨c :: pre, rest, by simp [hs], ?_, hkr⟩
        intro x hx
        rcases List.mem_cons.mp hx with hx | hx
        · subst hx; exact hp
        · exact hpre x hx
      | none => rw [hg] at h; exact ⟨[], c :: cs, rfl, by simp, h⟩
    · rw [if_neg hp] at h; exact ⟨[], c :: cs, rfl, by simp, h⟩

/-- The lazy star `[^"]*?` followed by a forced `"`: on an input whose next
quote closes the value, the continuation runs exactly at that quote. -/
theorem starLaux_nq_eq {A : Type} (V : List Char) (hV : '"' ∉ V)
    (k : List Char → Option A) (rest : List Char)
    (hk : ∀ c cs, c ≠ '"' → k (c :: cs) = none) :
    starLaux nq k (V ++ '"' :: rest) = k ('"' :: rest) := by
  induction V with
  | nil =>
    simp only [List.nil_append, starLaux]
    cases hk0 : k ('"' :: rest) with
    | some r => simp [hk0]
    | none => simp [hk0, nq]
  | cons c V ih =>
    have hc : c ≠ '"' := by intro hc; exact hV (by simp [hc])
    have hV' : '"' ∉ V := by intro hm; exact hV (by simp [hm])
    simp only [List.cons_append, starLaux, hk c _ hc]
    have hp : nq c = true := by simp [nq, hc]
    rw [hp]
    simp only [if_true]
    exact ih hV'

/-- Any successful match consumed a prefix of the input and then ran the
continuation on the remainder (with some capture list). -/
theorem mat_consume {A : Type} (re : RE) : ∀ (s : List Char)
    (k : List Char → Caps → Option A) (caps : Caps) (r : A),
    mat re s k caps = some r →
    ∃ pre rest caps', s = pre ++ rest ∧ k rest caps' = some r := by
  induction re with
  | eps => intro s k caps r h; exact ⟨[], s, caps, rfl, h⟩
  | ch c =>
    intro s k caps r h
    cases s with
    | nil => simp [mat] at h
    | cons x xs =>
      simp only [mat] at h
      by_cases hx : x = c
      · rw [if_pos hx] at h; exact ⟨[x], xs, caps, rfl, h⟩
      · simp [hx] at h
  | starG p =>
    intro s k caps r h
    obtain ⟨pre, rest, hs, _, hk⟩ := starGaux_inv p _ s r h
    exact ⟨pre, rest, caps, hs, hk⟩
  | starL p =>
    intro s k caps r h
    obtain ⟨pre, rest, hs, _, hk⟩ := starLaux_inv p _ s r h
    exact ⟨pre, rest, caps, hs, hk⟩
  | seq a b iha ihb =>
    intro s k caps r h
    obtain ⟨pre₁, rest₁, caps₁, hs₁, hk₁⟩ := iha s _ caps r h
    obtain ⟨pre₂, rest₂, caps₂, hs₂, hk₂⟩ := ihb rest₁ k caps₁ r hk₁
    exact ⟨pre₁ ++ pre₂, rest₂, caps₂, by simp [hs₁, hs₂], hk₂⟩
  | group g ih =>
    intro s k caps r h
    obtain ⟨pre, rest, caps', hs, hk⟩ := ih s _ caps r h
    exact ⟨pre, rest, caps' ++ [s.take (s.length - rest.length)], hs, hk⟩

/-- A match found by `matchAt` fits inside the input. -/
theorem matchAt_bound (re : RE) (s : List Char) (len : Nat) (caps : Caps)
    (h : matchAt re s = some (len, caps)) : len ≤ s.length := by
  obtain ⟨pre, rest, caps', hs, hk⟩ := mat_consume re s _ [] (len, caps) h
  have : s.length - rest.length = len := by
    have := hk
    simp only [Option.some.injEq, Prod.mk.injEq] at this
    exact this.1
  omega

/-- Unfolding `searchAux`: a hit at offset `i` is a `matchAt` hit on the
suffix at `i`. -/
theorem searchAux_inv (re : RE) : ∀ (s : List Char) (j i len : Nat) (caps : Caps),
    searchAux re s j = some (i, len, caps) →
    j ≤ i ∧ i - j ≤ s.length ∧ matchAt re (s.drop (i - j)) = some (len, caps) := by
  intro s
  induction s with
  | nil =>
    intro j i len caps h
    simp only [searchAux] at h
    cases hm : matchAt re [] with
    | some v => rw [hm] at h; simp_all
    | none => rw [hm] at h; simp at h
  | cons c cs ih =>
    intro j i len caps h
    simp only [searchAux] at h
    cases hm : matchAt re (c :: cs) with
    | some v =>
      rw [hm] at h
      obtain ⟨rfl, rfl, rfl⟩ : i = j ∧ len = v.1 ∧ caps = v.2 := by
        cases v; simp_all
      simp [hm]
    | none =>
      rw [hm] at h
      obtain ⟨hji, hbound, hmatch⟩ := ih (j + 1) i len caps h
      refine ⟨by omega, by simp; omega, ?_⟩
      have : i - j = (i - (j + 1)) + 1 := by omega
      rw [this]
      simpa using hmatch

/-- A `reSearch` hit lies inside the string. -/
theorem reSearch_bound (re : RE) (s : List Char) (i len : Nat) (caps : Caps)
    (h : reSearch re s = some (i, len, caps)) : i + len ≤ s.length := by
  obtain ⟨_, hi, hmatch⟩ := searchAux_inv re s 0 i len caps h
  simp only [Nat.sub_zero] at hi hmatch
  have := matchAt_bound re (s.drop i) len caps hmatch
  simp [List.length_drop] at this
  omega

/-- The fuel of `subF` is irrelevant once it exceeds the input length. -/
theorem subF_congr (re : RE) (t : Caps → List Char) :
    ∀ (f g : Nat) (s : List Char), s.length < f → s.length < g →
    subF re t f s = subF re t g s := by
  intro f
  induction f with
  | zero => intro g s hf; omega
  | succ f ihf =>
    intro g s hf hg
    cases g with
    | zero => omega
    | succ g =>
      simp only [subF]
      cases hsearch : reSearch re s with
      | none => rfl
      | some v =>
        obtain ⟨i, len, caps⟩ := v
        have hbound := reSearch_bound re s i len caps hsearch
        by_cases hlen : len = 0
        · subst hlen
          cases hdrop : s.drop i with
          | nil => simp [hdrop]
          | cons c rest =>
            have hlrest : rest.length + 1 = s.length - i := by
              have := congrArg List.length hdrop
              simp [List.length_drop] at this
              omega
            have h1 : rest.length < f := by omega
            have h2 : rest.length < g := by omega
            simp [hdrop, ihf g rest h1 h2]
        · simp only [if_neg hlen]
          have hld : (s.drop (i + len)).length = s.length - (i + len) := by
            simp [List.length_drop]
          have h1 : (s.drop (i + len)).length < f := by omega
          have h2 : (s.drop (i + len)).length < g := by omega
          rw [ihf g _ h1 h2]

/-- `re.sub` with no match anywhere returns the input unchanged. -/
theorem pySub_none (re : RE) (t : Caps → List Char) (s : List Char)
    (h : reSearch re s = none) : pySub re t s = s := by
  simp [pySub, subF, h]

/-- `re.sub` with a first (non-empty) match at `i`: keep the prefix, emit
the template, continue after the match. -/
theorem pySub_some (re : RE) (t : Caps → List Char) (s : List Char)
    (i len : Nat) (caps : Caps)
    (h : reSearch re s = some (i, len, caps)) (hlen : 1 ≤ len) :
    pySub re t s = s.take i ++ t caps ++ pySub re t (s.drop (i + len)) := by
  have hbound := reSearch_bound re s i len caps h
  simp only [pySub, subF, h]
  have hlen0 : ¬ len = 0 := by omega
  simp only [if_neg hlen0]
  congr 1
  have hld : (s.drop (i + len)).length = s.length - (i + len) := by
    simp [List.length_drop]
  exact subF_congr re t s.length ((s.drop (i + len)).length + 1) _ (by omega) (by omega)


/-! ### The payload-repair pattern `.*}{` -/

/-- The brace literal fails on input not of the form `}` `{` `...`. -/
theorem mat_brace_none {A : Type} (s : List Char)
    (k : List Char → Caps → Option A) (caps : Caps)
    (h : ¬ ∃ b, s = '}' :: '{' :: b) :
    mat (restr [ '}', '{' ]) s k caps = none := by
  cases hm : mat (restr [ '}', '{' ]) s k caps with
  | none => rfl
  | some r =>
    obtain ⟨rest, hs, _⟩ := mat_restr_inv _ s k caps r hm
    exact absurd ⟨rest, by simpa using hs⟩ h

/-- Splitting an occurrence test at the first character. -/
theorem containsSeq_cons_false (pat : List Char) (c : Char) (cs : List Char)
    (h : containsSeq pat (c :: cs) = false) :
    pat.isPrefixOf (c :: cs) = false ∧ containsSeq pat cs = false := by
  simpa [containsSeq, Bool.or_eq_false_iff] using h

/-- When no `}{` boundary occurs in `s`, the greedy scan of `.*}{` fails. -/
theorem starGaux_brace_none {A : Type} (k : List Char → Caps → Option A) (caps : Caps) :
    ∀ (s : List Char), containsSeq [ '}', '{' ] s = false →
    starGaux dotc (fun s' => mat (restr [ '}', '{' ]) s' k caps) s = none := by
  intro s
  induction s with
  | nil =>
    intro _
    show mat (restr [ '}', '{' ]) [] k caps = none
    apply mat_brace_none
    rintro ⟨b, hb⟩
    simp at hb
  | cons c cs ih =>
    intro h
    obtain ⟨hpre, htail⟩ := containsSeq_cons_false _ c cs h
    have hK : mat (restr [ '}', '{' ]) (c :: cs) k caps = none := by
      apply mat_brace_none
      rintro ⟨b, hb⟩
      rw [hb] at hpre
      simp [List.isPrefixOf] at hpre
    simp only [starGaux]
    by_cases hc : dotc c = true
    · rw [if_pos hc, ih htail]
      exact hK
    · rw [if_neg hc]
      exact hK

/-- Greedy matching of `.*}{` on `a ++ "}{" ++ b` with no boundary in `b`
and no newline in `a`: the star backtracks to the last boundary, so the
whole of `a ++ "}{"` is consumed and the continuation runs on `b`. -/
theorem mat_last_obj_boundary {A : Type} (k : List Char → Caps → Option A) (caps : Caps)
    (hk : ∀ rest caps', (k rest caps').isSome = true) :
    ∀ (a b : List Char), '\n' ∉ a → containsSeq [ '}', '{' ] b = false →
    mat last_obj_re (a ++ '}' :: '{' :: b) k caps = k b caps := by
  intro a
  induction a with
  | nil =>
    intro b _ hb
    show starGaux dotc (fun s' => mat (restr [ '}', '{' ]) s' k caps) ('}' :: '{' :: b) = k b caps
    have h0 := starGaux_brace_none k caps b hb
    have hbr : mat (restr [ '}', '{' ]) ('{' :: b) k caps = none := by
      apply mat_brace_none
      rintro ⟨b', hb'⟩
      simp at hb'
    have happ := mat_restr_append [ '}', '{' ] b k caps
    simp [starGaux, h0, hbr, dotc]
    exact happ
  | cons c a ih =>
    intro b ha hb
    have hcne : c ≠ '\n' := by
      intro hEq
      exact ha (by simp [hEq])
    have hc : dotc c = true := by simp [dotc, hcne]
    have ha' : '\n' ∉ a := fun hm => ha (List.mem_cons_of_mem c hm)
    show starGaux dotc (fun s' => mat (restr [ '}', '{' ]) s' k caps)
      (c :: (a ++ '}' :: '{' :: b)) = k b caps
    simp only [starGaux]
    rw [if_pos hc]
    have hrec : starGaux dotc (fun s' => mat (restr [ '}', '{' ]) s' k caps)
        (a ++ '}' :: '{' :: b) = k b caps := ih b ha' hb
    rw [hrec]
    cases hkb : k b caps with
    | some r => rfl
    | none =>
      have := hk b caps
      rw [hkb] at this
      simp at this

/-- `matchAt` for `.*}{` on a boundary string: consume through the last boundary. -/
theorem matchAt_last_obj (a b : List Char) (ha : '\n' ∉ a)
    (hb : containsSeq [ '}', '{' ] b = false) :
    matchAt last_obj_re (a ++ '}' :: '{' :: b) = some (a.length + 2, []) := by
  unfold matchAt
  rw [mat_last_obj_boundary
    (fun rest caps => some ((a ++ '}' :: '{' :: b).length - rest.length, caps)) []
    (fun _ _ => rfl) a b ha hb]
  have hlen : (a ++ '}' :: '{' :: b).length - b.length = a.length + 2 := by
    simp [List.length_append]
    omega
  rw [hlen]

/-- `matchAt` for `.*}{` fails when the string has no boundary at all. -/
theorem matchAt_last_obj_none (s : List Char)
    (hs : containsSeq [ '}', '{' ] s = false) :
    matchAt last_obj_re s = none := by
  unfold matchAt
  exact starGaux_brace_none _ [] s hs

/-- `reSearch` for `.*}{` fails when the string has no boundary at all. -/
theorem searchAux_last_obj_none : ∀ (s : List Char) (j : Nat),
    containsSeq [ '}', '{' ] s = false → searchAux last_obj_re s j = none := by
  intro s
  induction s with
  | nil => intro j h; simp [searchAux, matchAt_last_obj_none [] h]
  | cons c cs ih =>
    intro j h
    obtain ⟨_, htail⟩ := containsSeq_cons_false _ c cs h
    simp [searchAux, matchAt_last_obj_none _ h, ih (j + 1) htail]

/-- One-step unfolding of `searchAux` for arbitrary (non-constructor) input. -/
theorem searchAux_eq (re : RE) (s : List Char) (j : Nat) :
    searchAux re s j =
      match matchAt re s with
      | some (len, caps) => some (j, len, caps)
      | none =>
        match s with
        | [] => none
        | _ :: cs => searchAux re cs (j + 1) := by
  cases s <;> simp [searchAux]

/-- `reSearch` for `.*}{` on a boundary string with newline-free head. -/
theorem reSearch_last_obj (a b : List Char) (ha : '\n' ∉ a)
    (hb : containsSeq [ '}', '{' ] b = false) :
    reSearch last_obj_re (a ++ '}' :: '{' :: b) = some (0, a.length + 2, []) := by
  unfold reSearch
  rw [searchAux_eq, matchAt_last_obj a b ha hb]

/-- C1 (amended): on newline-free artifact text containing a brace boundary,
`last_obj_re.sub('{', text)` collapses everything up to and including the
last `}{` boundary into a single `{`, keeping only the last object's
content.  Stated with `b` the content after the last boundary. -/
theorem c1_last_obj_repair (a b : List Char) (ha : '\n' ∉ a)
    (hab : containsSeq [ '}', '{' ] b = false) :
    pySub last_obj_re tmplBrace (a ++ '}' :: '{' :: b) = '{' :: b := by
  rw [pySub_some last_obj_re tmplBrace _ 0 (a.length + 2) []
    (reSearch_last_obj a b ha hab) (by omega)]
  have hdrop : (a ++ '}' :: '{' :: b).drop (0 + (a.length + 2)) = b := by
    have h2 : a ++ '}' :: '{' :: b = (a ++ [ '}', '{' ]) ++ b := by simp
    have hl : (a ++ [ '}', '{' ]).length = a.length + 2 := by simp
    rw [h2, Nat.zero_add, ← hl]
    exact List.drop_left _ _
  rw [hdrop, pySub_none _ _ _ (searchAux_last_obj_none b 0 hab)]
  rfl

/-- C1 counterexample: with a newline in the artifact text (Python `.` does
not cross newlines), the repair does not keep only the last object's
content — the first line survives in front of it. -/
theorem c1_last_obj_repair_cex :
    pySub last_obj_re tmplBrace
        (String.toList "\x7b\"a\":1\x7d\n\x7b\"b\":2\x7d\x7b\"c\":3\x7d")
      = String.toList "\x7b\"a\":1\x7d\n\x7b\"c\":3\x7d" ∧
    pySub last_obj_re tmplBrace
        (String.toList "\x7b\"a\":1\x7d\n\x7b\"b\":2\x7d\x7b\"c\":3\x7d")
      ≠ String.toList "\x7b\"c\":3\x7d" := by
  constructor
  · decide
  · decide

/-- C1 witness: the amended theorem applied at a concrete input. -/
theorem c1_last_obj_repair_witness :
    pySub last_obj_re tmplBrace ([ 'a' ] ++ '}' :: '{' :: [ 'b' ]) = '{' :: [ 'b' ] :=
  c1_last_obj_repair [ 'a' ] [ 'b' ] (by decide) (by decide)


/-! ### The attribute-flip patterns -/

/-- Definitional unfolding of the matcher on a group. -/
theorem mat_group_eq {A : Type} (r : RE) (s : List Char)
    (k : List Char → Caps → Option A) (caps : Caps) :
    mat (.group r) s k caps
      = mat r s (fun s' caps' => k s' (caps' ++ [s.take (s.length - s'.length)])) caps := rfl

/-- Definitional unfolding of the matcher on a sequence. -/
theorem mat_seq_eq {A : Type} (a b : RE) (s : List Char)
    (k : List Char → Caps → Option A) (caps : Caps) :
    mat (.seq a b) s k caps = mat a s (fun s' caps' => mat b s' k caps') caps := rfl

/-- Definitional unfolding of the matcher on a lazy star. -/
theorem mat_starL_eq {A : Type} (p : Char → Bool) (s : List Char)
    (k : List Char → Caps → Option A) (caps : Caps) :
    mat (.starL p) s k caps = starLaux p (fun s' => k s' caps) s := rfl

/-- Definitional unfolding of the matcher on a literal character. -/
theorem mat_ch_cons {A : Type} (c x : Char) (xs : List Char)
    (k : List Char → Caps → Option A) (caps : Caps) :
    mat (.ch c) (x :: xs) k caps = if x = c then k xs caps else none := rfl

/-- A non-empty literal sequence cannot match the empty input. -/
theorem mat_restr_ne_nil_none {A : Type} (l : List Char) (hl : l ≠ [])
    (k : List Char → Caps → Option A) (caps : Caps) :
    mat (restr l) [] k caps = none := by
  cases l with
  | nil => cases hl rfl
  | cons c cs => rfl

/-- Matching the group `(n="[^"]*?")` on `n="V"` followed by `rest`:
consume up to and including the closing quote and capture `n="V"`. -/
theorem mat_attrG_append {A : Type} (n V rest : List Char) (hV : '"' ∉ V)
    (k : List Char → Caps → Option A) (caps : Caps) :
    mat (attrG n) (n ++ '=' :: '"' :: V ++ '"' :: rest) k caps
      = k rest (caps ++ [ n ++ '=' :: '"' :: V ++ [ '"' ] ]) := by
  rw [attrG, mat_group_eq, mat_seq_eq]
  have hs : n ++ '=' :: '"' :: V ++ '"' :: rest
      = (n ++ [ '=', '"' ]) ++ (V ++ '"' :: rest) := by simp
  rw [hs, mat_restr_append, mat_seq_eq, mat_starL_eq]
  rw [starLaux_nq_eq V hV _ rest (by
    intro c cs hc
    rw [mat_ch_cons, if_neg hc])]
  rw [mat_ch_cons, if_pos rfl]
  have htake : ((n ++ [ '=', '"' ]) ++ (V ++ '"' :: rest)).take
      (((n ++ [ '=', '"' ]) ++ (V ++ '"' :: rest)).length - rest.length)
      = n ++ '=' :: '"' :: V ++ [ '"' ] := by
    have h1 : (n ++ [ '=', '"' ]) ++ (V ++ '"' :: rest)
        = (n ++ '=' :: '"' :: V ++ [ '"' ]) ++ rest := by simp
    have h2 : ((n ++ '=' :: '"' :: V ++ [ '"' ]) ++ rest).length - rest.length
        = (n ++ '=' :: '"' :: V ++ [ '"' ]).length := by
      simp [List.length_append]
      omega
    rw [h1, h2]
    exact List.take_left _ _
  rw [htake]

/-- Inversion for the group `(n="[^"]*?")`: a successful match forces the
input to start `n="V"` with `V` quote-free, and captures `n="V"`. -/
theorem mat_attrG_inv {A : Type} (n s : List Char) (k : List Char → Caps → Option A)
    (caps : Caps) (r : A) (h : mat (attrG n) s k caps = some r) :
    ∃ V rest, '"' ∉ V ∧ s = n ++ '=' :: '"' :: V ++ '"' :: rest ∧
      k rest (caps ++ [ n ++ '=' :: '"' :: V ++ [ '"' ] ]) = some r := by
  rw [attrG, mat_group_eq, mat_seq_eq] at h
  obtain ⟨s₁, hs₁, hk₁⟩ := mat_restr_inv _ s _ caps r h
  rw [mat_seq_eq, mat_starL_eq] at hk₁
  obtain ⟨V, s₂, hs₂, hV, hk₂⟩ := starLaux_inv nq _ s₁ r hk₁
  cases s₂ with
  | nil => simp [mat] at hk₂
  | cons x xs =>
    rw [mat_ch_cons] at hk₂
    by_cases hx : x = '"'
    · subst hx
      rw [if_pos rfl] at hk₂
      have hVq : '"' ∉ V := by
        intro hm
        have := hV '"' hm
        simp [nq] at this
      have hshape : s = n ++ '=' :: '"' :: V ++ '"' :: xs := by
        rw [hs₁, hs₂]
        simp
      refine ⟨V, xs, hVq, hshape, ?_⟩
      have htake : s.take (s.length - xs.length) = n ++ '=' :: '"' :: V ++ [ '"' ] := by
        have h1 : s = (n ++ '=' :: '"' :: V ++ [ '"' ]) ++ xs := by
          rw [hshape]; simp
        have h2 : ((n ++ '=' :: '"' :: V ++ [ '"' ]) ++ xs).length - xs.length
            = (n ++ '=' :: '"' :: V ++ [ '"' ]).length := by
          simp [List.length_append]
          omega
        rw [h1, h2]
        exact List.take_left _ _
      rw [htake] at hk₂
      exact hk₂
    · rw [if_neg hx] at hk₂
      exact absurd hk₂ (by simp)

/-- Inversion for a two-attribute flip pattern: a successful match forces
the input to start with the full `n1="X" n2="Y"` pair, quote-free values,
and captures the two attributes. -/
theorem mat_flip2_inv {A : Type} (n1 n2 s : List Char) (k : List Char → Caps → Option A)
    (caps : Caps) (r : A) (h : mat (flip2re n1 n2) s k caps = some r) :
    ∃ X Y rest, '"' ∉ X ∧ '"' ∉ Y ∧
      s = n1 ++ '=' :: '"' :: X ++ '"' :: ' ' :: n2 ++ '=' :: '"' :: Y ++ '"' :: rest ∧
      k rest (caps ++ [ n1 ++ '=' :: '"' :: X ++ [ '"' ], n2 ++ '=' :: '"' :: Y ++ [ '"' ] ])
        = some r := by
  rw [flip2re, mat_seq_eq] at h
  obtain ⟨X, rest₁, hX, hs₁, hk₁⟩ := mat_attrG_inv n1 s _ caps r h
  rw [mat_seq_eq] at hk₁
  cases rest₁ with
  | nil => simp [mat] at hk₁
  | cons x xs =>
    rw [mat_ch_cons] at hk₁
    by_cases hx : x = ' '
    · subst hx
      rw [if_pos rfl] at hk₁
      obtain ⟨Y, rest, hY, hs₂, hk₂⟩ := mat_attrG_inv n2 xs _ _ r hk₁
      refine ⟨X, Y, rest, hX, hY, ?_, ?_⟩
      · rw [hs₁, hs₂]; simp
      · rw [List.append_assoc] at hk₂
        simpa using hk₂
    · rw [if_neg hx] at hk₁
      exact absurd hk₁ (by simp)

/-- Inversion for `flip_div_attrs_re`: a successful match forces the input
to start with the full four-attribute group (eight quotes). -/
theorem mat_flip4_inv {A : Type} (s : List Char) (k : List Char → Caps → Option A)
    (caps : Caps) (r : A) (h : mat flip_div_attrs_re s k caps = some r) :
    ∃ A1 A2 A3 A4 rest,
      s = [ 't', 'y', 'p', 'e' ] ++ '=' :: '"' :: A1 ++ '"'
        :: ' ' :: [ 'r', 'e', 'n', 'd' ] ++ '=' :: '"' :: A2 ++ '"'
        :: ' ' :: [ 'r', 'e', 'n', 'd', 'i', 't', 'i', 'o', 'n' ] ++ '=' :: '"' :: A3 ++ '"'
        :: ' ' :: [ 's', 'u', 'b', 't', 'y', 'p', 'e' ] ++ '=' :: '"' :: A4 ++ '"' :: rest := by
  rw [flip_div_attrs_re, mat_seq_eq] at h
  obtain ⟨A1, rest₁, hA1, hs₁, hk₁⟩ := mat_attrG_inv _ s _ caps r h
  rw [mat_seq_eq] at hk₁
  cases rest₁ with
  | nil => simp [mat] at hk₁
  | cons x1 xs1 =>
    rw [mat_ch_cons] at hk₁
    by_cases hx1 : x1 = ' '
    case neg => rw [if_neg hx1] at hk₁; exact absurd hk₁ (by simp)
    subst hx1
    rw [if_pos rfl, mat_seq_eq] at hk₁
    obtain ⟨A2, rest₂, hA2, hs₂, hk₂⟩ := mat_attrG_inv _ xs1 _ _ r hk₁
    rw [mat_seq_eq] at hk₂
    cases rest₂ with
    | nil => simp [mat] at hk₂
    | cons x2 xs2 =>
      rw [mat_ch_cons] at hk₂
      by_cases hx2 : x2 = ' '
      case neg => rw [if_neg hx2] at hk₂; exact absurd hk₂ (by simp)
      subst hx2
      rw [if_pos rfl, mat_seq_eq] at hk₂
      obtain ⟨A3, rest₃, hA3, hs₃, hk₃⟩ := mat_attrG_inv _ xs2 _ _ r hk₂
      rw [mat_seq_eq] at hk₃
      cases rest₃ with
      | nil => simp [mat] at hk₃
      | cons x3 xs3 =>
        rw [mat_ch_cons] at hk₃
        by_cases hx3 : x3 = ' '
        case neg => rw [if_neg hx3] at hk₃; exact absurd hk₃ (by simp)
        subst hx3
        rw [if_pos rfl] at hk₃
        obtain ⟨A4, rest, hA4, hs₄, hk₄⟩ := mat_attrG_inv _ xs3 _ _ r hk₃
        exact ⟨A1, A2, A3, A4, rest, by rw [hs₁, hs₂, hs₃, hs₄]; simp⟩


/-- Two quote-free prefixes closed by a quote in the same string coincide. -/
theorem quotefree_split (a : List Char) : ∀ (b x y : List Char), '"' ∉ a → '"' ∉ b →
    a ++ '"' :: x = b ++ '"' :: y → a = b ∧ x = y := by
  induction a with
  | nil =>
    intro b x y _ hb h
    cases b with
    | nil =>
      simp only [List.nil_append] at h
      exact ⟨rfl, by injection h⟩
    | cons c bs =>
      simp only [List.nil_append, List.cons_append] at h
      injection h with h1 _
      exact absurd (h1 ▸ List.mem_cons_self c bs) hb
  | cons c as ih =>
    intro b x y ha hb h
    cases b with
    | nil =>
      simp only [List.cons_append, List.nil_append] at h
      injection h with h1 _
      exact absurd (h1 ▸ List.mem_cons_self c as) ha
    | cons d bs =>
      simp only [List.cons_append] at h
      injection h with h1 h2
      have ha' : '"' ∉ as := fun hm => ha (List.mem_cons_of_mem c hm)
      have hb' : '"' ∉ bs := fun hm => hb (List.mem_cons_of_mem d hm)
      obtain ⟨he, hx⟩ := ih bs x y ha' hb' h2
      exact ⟨by rw [h1, he], hx⟩

/-- An element sitting at depth `u.length` survives a `take` past it. -/
theorem mem_take_append_cons (x : Char) : ∀ (u z : List Char) (i : Nat), u.length < i →
    x ∈ (u ++ x :: z).take i := by
  intro u
  induction u with
  | nil =>
    intro z i hi
    cases i with
    | zero => omega
    | succ m => simp
  | cons c us ih =>
    intro z i hi
    cases i with
    | zero => omega
    | succ m =>
      simp only [List.cons_append, List.take_succ_cons]
      exact List.mem_cons_of_mem c (ih z m (by simpa using hi))

/-- Master no-match lemma for two-attribute flips: on a string of the shape
`u1"C"u2"D"E` (exactly four quotes, quote-free components) whose leading
segment can never be completed to the literal `n1=`, the pattern matches
nowhere. -/
theorem reSearch_flip2_none (n1 n2 u1 C u2 D E : List Char)
    (hu1 : '"' ∉ u1) (hC : '"' ∉ C) (hu2 : '"' ∉ u2) (hD : '"' ∉ D) (hE : '"' ∉ E)
    (hne : ∀ i, i ≤ u1.length → u1.drop i ≠ n1 ++ [ '=' ]) :
    reSearch (flip2re n1 n2)
      (u1 ++ '"' :: (C ++ '"' :: (u2 ++ '"' :: (D ++ '"' :: E)))) = none := by
  cases hres : reSearch (flip2re n1 n2)
      (u1 ++ '"' :: (C ++ '"' :: (u2 ++ '"' :: (D ++ '"' :: E)))) with
  | none => rfl
  | some v =>
    exfalso
    obtain ⟨i, len, caps⟩ := v
    obtain ⟨-, hile, hmatch⟩ := searchAux_inv _ _ 0 i len caps hres
    simp only [Nat.sub_zero] at hile hmatch
    unfold matchAt at hmatch
    obtain ⟨X, Y, rest, hX, hY, hdecomp, -⟩ := mat_flip2_inv n1 n2 _ _ [] _ hmatch
    have htcount : (u1 ++ '"' :: (C ++ '"' :: (u2 ++ '"' :: (D ++ '"' :: E)))).count '"' = 4 := by
      simp [List.count_append, List.count_cons, List.count_eq_zero.mpr hu1,
        List.count_eq_zero.mpr hC, List.count_eq_zero.mpr hu2, List.count_eq_zero.mpr hD,
        List.count_eq_zero.mpr hE]
    have hsplit : (u1 ++ '"' :: (C ++ '"' :: (u2 ++ '"' :: (D ++ '"' :: E)))).count '"'
        = ((u1 ++ '"' :: (C ++ '"' :: (u2 ++ '"' :: (D ++ '"' :: E)))).take i).count '"'
          + ((u1 ++ '"' :: (C ++ '"' :: (u2 ++ '"' :: (D ++ '"' :: E)))).drop i).count '"' := by
      conv_lhs =>
        rw [← List.take_append_drop i (u1 ++ '"' :: (C ++ '"' :: (u2 ++ '"' :: (D ++ '"' :: E))))]
      rw [List.count_append]
    have hdropcount : ((u1 ++ '"' :: (C ++ '"' :: (u2 ++ '"' :: (D ++ '"' :: E)))).drop i).count '"'
        = 4 + n1.count '"' + X.count '"' + n2.count '"' + Y.count '"' + rest.count '"' := by
      rw [hdecomp]
      simp [List.count_append, List.count_cons]
      ring
    have htake0 : ((u1 ++ '"' :: (C ++ '"' :: (u2 ++ '"' :: (D ++ '"' :: E)))).take i).count '"'
        = 0 := by
      omega
    have hn1c : n1.count '"' = 0 := by omega
    have hiu : i ≤ u1.length := by
      by_contra hgt
      push_neg at hgt
      have hmem : '"' ∈ (u1 ++ '"' :: (C ++ '"' :: (u2 ++ '"' :: (D ++ '"' :: E)))).take i :=
        mem_take_append_cons '"' u1 _ i hgt
      exact (List.count_eq_zero.mp htake0) hmem
    have hdropappend : List.drop i (u1 ++ '"' :: (C ++ '"' :: (u2 ++ '"' :: (D ++ '"' :: E))))
        = u1.drop i ++ '"' :: (C ++ '"' :: (u2 ++ '"' :: (D ++ '"' :: E))) :=
      List.drop_append_of_le_length hiu
    have hshape : u1.drop i ++ '"' :: (C ++ '"' :: (u2 ++ '"' :: (D ++ '"' :: E)))
        = (n1 ++ [ '=' ]) ++ '"' :: (X ++ '"' :: ' ' :: (n2 ++ '=' :: '"' :: Y ++ '"' :: rest)) := by
      have h0 := hdropappend.symm.trans hdecomp
      simpa using h0
    have hdropq : '"' ∉ u1.drop i := fun hm => hu1 (List.mem_of_mem_drop hm)
    have hbq : '"' ∉ n1 ++ [ '=' ] := by
      intro hm
      rcases List.mem_append.mp hm with hm | hm
      · exact absurd hm (List.count_eq_zero.mp hn1c)
      · simp at hm
    obtain ⟨heq, -⟩ := quotefree_split _ _ _ _ hdropq hbq hshape
    exact hne i hiu heq

/-- Master no-match lemma for the four-attribute pattern: it needs eight
quotes, so it matches nowhere in a string with at most seven. -/
theorem reSearch_flip4_none (t : List Char) (hq : t.count '"' ≤ 7) :
    reSearch flip_div_attrs_re t = none := by
  cases hres : reSearch flip_div_attrs_re t with
  | none => rfl
  | some v =>
    exfalso
    obtain ⟨i, len, caps⟩ := v
    obtain ⟨-, hile, hmatch⟩ := searchAux_inv _ t 0 i len caps hres
    simp only [Nat.sub_zero] at hmatch
    unfold matchAt at hmatch
    obtain ⟨A1, A2, A3, A4, rest, hdecomp⟩ := mat_flip4_inv _ _ [] _ hmatch
    have h1 : 8 ≤ (t.drop i).count '"' := by
      rw [hdecomp]
      simp [List.count_append, List.count_cons]
      omega
    have h2 : t.count '"' = (t.take i).count '"' + (t.drop i).count '"' := by
      conv_lhs => rw [← List.take_append_drop i t]
      rw [List.count_append]
    omega

/-- `matchAt` on the exact attribute pair: the whole pair is consumed and
both attributes are captured in order. -/
theorem matchAt_flip2_pair (n1 n2 X Y : List Char) (hX : '"' ∉ X) (hY : '"' ∉ Y) :
    matchAt (flip2re n1 n2) (pairStr n1 X n2 Y)
      = some ((pairStr n1 X n2 Y).length,
          [ n1 ++ '=' :: '"' :: X ++ [ '"' ], n2 ++ '=' :: '"' :: Y ++ [ '"' ] ]) := by
  unfold matchAt
  rw [show (flip2re n1 n2) = .seq (attrG n1) (.seq (.ch ' ') (attrG n2)) from rfl, mat_seq_eq]
  rw [show pairStr n1 X n2 Y
    = n1 ++ '=' :: '"' :: X ++ '"' :: (' ' :: (n2 ++ '=' :: '"' :: Y ++ '"' :: ([] : List Char)))
    from by simp [pairStr]]
  rw [mat_attrG_append n1 X _ hX, mat_seq_eq, mat_ch_cons, if_pos rfl]
  rw [mat_attrG_append n2 Y [] hY]
  simp [pairStr]

/-- `matchAt` of a two-attribute flip fails on the empty input. -/
theorem matchAt_flip2_nil (n1 n2 : List Char) : matchAt (flip2re n1 n2) [] = none := by
  unfold matchAt
  rw [show (flip2re n1 n2) = .seq (attrG n1) (.seq (.ch ' ') (attrG n2)) from rfl, mat_seq_eq]
  rw [attrG, mat_group_eq, mat_seq_eq]
  exact mat_restr_ne_nil_none _ (by simp) _ _

/-- `reSearch` fails on the empty input when `matchAt` does. -/
theorem reSearch_nil_none (re : RE) (h : matchAt re [] = none) : reSearch re [] = none := by
  unfold reSearch
  rw [searchAux_eq, h]

/-- A two-attribute flip substitution on the exact pair swaps the pair. -/
theorem pySub_flip2_pair (n1 n2 X Y : List Char) (hX : '"' ∉ X) (hY : '"' ∉ Y) :
    pySub (flip2re n1 n2) tmplSwap (pairStr n1 X n2 Y) = pairStr n2 Y n1 X := by
  have hsearch : reSearch (flip2re n1 n2) (pairStr n1 X n2 Y)
      = some (0, (pairStr n1 X n2 Y).length,
          [ n1 ++ '=' :: '"' :: X ++ [ '"' ], n2 ++ '=' :: '"' :: Y ++ [ '"' ] ]) := by
    unfold reSearch
    rw [searchAux_eq, matchAt_flip2_pair n1 n2 X Y hX hY]
  have hlenpos : 1 ≤ (pairStr n1 X n2 Y).length := by
    simp [pairStr, List.length_append]
    omega
  rw [pySub_some _ _ _ 0 _ _ hsearch hlenpos, Nat.zero_add, List.drop_length,
    pySub_none _ _ [] (reSearch_nil_none _ (matchAt_flip2_nil n1 n2))]
  simp [pairStr, tmplSwap]


/-! ### The normalizer on attribute pairs -/

/-- The attribute pair reshaped into the four-quote form of the master
no-match lemma. -/
theorem pairStr_shape (n1 X n2 Y : List Char) :
    pairStr n1 X n2 Y
      = (n1 ++ [ '=' ]) ++ '"' :: (X ++ '"' :: ((' ' :: (n2 ++ [ '=' ])) ++ '"' :: (Y ++ [ '"' ]))) := by
  simp [pairStr]

/-- A two-attribute flip pattern `m1=... m2=...` matches nowhere in an
attribute pair whose first name cannot be completed to `m1=`. -/
theorem reSearch_flip2_pairStr_none (m1 m2 n1 X n2 Y : List Char)
    (hX : '"' ∉ X) (hY : '"' ∉ Y) (hn1 : '"' ∉ n1) (hn2 : '"' ∉ n2)
    (hne : ∀ i, i ≤ (n1 ++ [ '=' ]).length → (n1 ++ [ '=' ]).drop i ≠ m1 ++ [ '=' ]) :
    reSearch (flip2re m1 m2) (pairStr n1 X n2 Y) = none := by
  rw [pairStr_shape]
  refine reSearch_flip2_none m1 m2 (n1 ++ [ '=' ]) X (' ' :: (n2 ++ [ '=' ])) Y []
    ?_ hX ?_ hY (by simp) hne
  · intro hm
    rcases List.mem_append.mp hm with hm | hm
    · exact hn1 hm
    · simp at hm
  · intro hm
    rcases List.mem_cons.mp hm with hm | hm
    · simp at hm
    · rcases List.mem_append.mp hm with hm | hm
      · exact hn2 hm
      · simp at hm

/-- The four-attribute pattern (eight quotes) matches nowhere in an
attribute pair (four quotes). -/
theorem reSearch_flip4_pairStr_none (n1 X n2 Y : List Char)
    (hX : '"' ∉ X) (hY : '"' ∉ Y) (hn1 : '"' ∉ n1) (hn2 : '"' ∉ n2) :
    reSearch flip_div_attrs_re (pairStr n1 X n2 Y) = none := by
  apply reSearch_flip4_none
  simp [pairStr, List.count_append, List.count_cons, List.count_eq_zero.mpr hX,
    List.count_eq_zero.mpr hY, List.count_eq_zero.mpr hn1, List.count_eq_zero.mpr hn2]

/-! ### The flip rules on embedded occurrences -/

/-- A two-attribute flip match starting at a quote-free run forces the run
to be the literal `n1=`: the group's opening quote must be the string's
first quote. -/
theorem matchAt_flip2_quote_head_none (n1 n2 A Z : List Char)
    (hA : '"' ∉ A) (hn1 : '"' ∉ n1) (hne : A ≠ n1 ++ [ '=' ]) :
    matchAt (flip2re n1 n2) (A ++ '"' :: Z) = none := by
  cases hm : matchAt (flip2re n1 n2) (A ++ '"' :: Z) with
  | none => rfl
  | some v =>
    exfalso
    unfold matchAt at hm
    obtain ⟨X, Y, rest, -, -, hdecomp, -⟩ := mat_flip2_inv n1 n2 _ _ [] _ hm
    have hshape : A ++ '"' :: Z
        = (n1 ++ [ '=' ]) ++ '"' :: (X ++ '"' :: ' ' :: (n2 ++ '=' :: '"' :: Y ++ '"' :: rest)) := by
      simpa using hdecomp
    have hbq : '"' ∉ n1 ++ [ '=' ] := by
      intro hm'
      rcases List.mem_append.mp hm' with hm' | hm'
      · exact hn1 hm'
      · simp at hm'
    obtain ⟨heq, -⟩ := quotefree_split A _ _ _ hA hbq hshape
    exact hne heq

/-- A two-attribute flip needs quotes: it cannot match a quote-free string. -/
theorem matchAt_flip2_noquote (n1 n2 s : List Char) (hs : '"' ∉ s) :
    matchAt (flip2re n1 n2) s = none := by
  cases hm : matchAt (flip2re n1 n2) s with
  | none => rfl
  | some v =>
    exfalso
    unfold matchAt at hm
    obtain ⟨X, Y, rest, -, -, hdecomp, -⟩ := mat_flip2_inv n1 n2 _ _ [] _ hm
    apply hs
    rw [hdecomp]
    simp

/-- A two-attribute flip matches nowhere in a quote-free string. -/
theorem searchAux_flip2_noquote (n1 n2 : List Char) :
    ∀ (s : List Char) (j : Nat), '"' ∉ s → searchAux (flip2re n1 n2) s j = none := by
  intro s
  induction s with
  | nil =>
    intro j _
    rw [searchAux_eq, matchAt_flip2_nil]
  | cons c cs ih =>
    intro j hs
    rw [searchAux_eq, matchAt_flip2_noquote n1 n2 _ hs]
    exact ih (j + 1) (fun hm => hs (List.mem_cons_of_mem c hm))

/-- `reSearch` of a two-attribute flip fails on quote-free strings. -/
theorem reSearch_flip2_noquote (n1 n2 s : List Char) (hs : '"' ∉ s) :
    reSearch (flip2re n1 n2) s = none :=
  searchAux_flip2_noquote n1 n2 s 0 hs

/-- `searchAux` reports the first matching offset: if every earlier suffix
fails to match and the suffix at `i0` matches, the search returns `i0`. -/
theorem searchAux_exact (re : RE) : ∀ (s : List Char) (j i0 len : Nat) (caps : Caps),
    (∀ i, i < i0 → matchAt re (s.drop i) = none) →
    matchAt re (s.drop i0) = some (len, caps) →
    searchAux re s j = some (j + i0, len, caps) := by
  intro s
  induction s with
  | nil =>
    intro j i0 len caps h1 h2
    cases i0 with
    | zero =>
      rw [searchAux_eq]
      have h2' : matchAt re [] = some (len, caps) := h2
      rw [h2']
      simp
    | succ k =>
      exfalso
      have h0 : matchAt re [] = none := h1 0 (Nat.succ_pos k)
      have h2' : matchAt re [] = some (len, caps) := by
        simpa [List.drop_nil] using h2
      rw [h0] at h2'
      simp at h2'
  | cons c cs ih =>
    intro j i0 len caps h1 h2
    cases i0 with
    | zero =>
      rw [searchAux_eq]
      have h2' : matchAt re (c :: cs) = some (len, caps) := h2
      rw [h2']
      simp
    | succ k =>
      have h0 : matchAt re (c :: cs) = none := h1 0 (Nat.succ_pos k)
      rw [searchAux_eq, h0]
      have ihx := ih (j + 1) k len caps (fun i hi => h1 (i + 1) (by omega)) h2
      show searchAux re cs (j + 1) = some (j + (k + 1), len, caps)
      rw [ihx]
      have harith : j + 1 + k = j + (k + 1) := by omega
      rw [harith]

/-- `matchAt` on an attribute pair followed by arbitrary text: the pair is
consumed and the two attributes are captured in order. -/
theorem matchAt_flip2_pair_tail (n1 n2 X Y tail : List Char) (hX : '"' ∉ X) (hY : '"' ∉ Y) :
    matchAt (flip2re n1 n2) (pairStr n1 X n2 Y ++ tail)
      = some ((pairStr n1 X n2 Y).length,
          [ n1 ++ '=' :: '"' :: X ++ [ '"' ], n2 ++ '=' :: '"' :: Y ++ [ '"' ] ]) := by
  unfold matchAt
  rw [show (flip2re n1 n2) = .seq (attrG n1) (.seq (.ch ' ') (attrG n2)) from rfl, mat_seq_eq]
  rw [show pairStr n1 X n2 Y ++ tail
    = n1 ++ '=' :: '"' :: X ++ '"' :: (' ' :: (n2 ++ '=' :: '"' :: Y ++ '"' :: tail))
    from by simp [pairStr]]
  rw [mat_attrG_append n1 X _ hX, mat_seq_eq, mat_ch_cons, if_pos rfl]
  rw [mat_attrG_append n2 Y tail hY]
  simp only [Option.some.injEq, Prod.mk.injEq, List.nil_append]
  constructor
  · simp [pairStr, List.length_append]
    omega
  · rfl

/-- Leftmost search on `c0 ++ (pair ++ tail)` with `c0` quote-free: the
first match is exactly the pair, at offset `c0.length`. -/
theorem reSearch_flip2_embed (n1 n2 c0 X Y tail : List Char)
    (hn1 : '"' ∉ n1) (hc0 : '"' ∉ c0) (hX : '"' ∉ X) (hY : '"' ∉ Y) :
    reSearch (flip2re n1 n2) (c0 ++ (pairStr n1 X n2 Y ++ tail))
      = some (c0.length, (pairStr n1 X n2 Y).length,
          [ n1 ++ '=' :: '"' :: X ++ [ '"' ], n2 ++ '=' :: '"' :: Y ++ [ '"' ] ]) := by
  have h1 : ∀ i, i < c0.length →
      matchAt (flip2re n1 n2) ((c0 ++ (pairStr n1 X n2 Y ++ tail)).drop i) = none := by
    intro i hi
    have hdrop : (c0 ++ (pairStr n1 X n2 Y ++ tail)).drop i
        = c0.drop i ++ (pairStr n1 X n2 Y ++ tail) :=
      List.drop_append_of_le_length (by omega)
    rw [hdrop]
    have hshape : c0.drop i ++ (pairStr n1 X n2 Y ++ tail)
        = (c0.drop i ++ (n1 ++ [ '=' ]))
          ++ '"' :: (X ++ '"' :: ' ' :: (n2 ++ '=' :: '"' :: Y ++ '"' :: tail)) := by
      simp [pairStr]
    rw [hshape]
    apply matchAt_flip2_quote_head_none
    · intro hm
      rcases List.mem_append.mp hm with hm | hm
      · exact hc0 (List.mem_of_mem_drop hm)
      · rcases List.mem_append.mp hm with hm | hm
        · exact hn1 hm
        · simp at hm
    · exact hn1
    · intro heq
      have hlen := congrArg List.length heq
      simp [List.length_append, List.length_drop] at hlen
      omega
  have h2 : matchAt (flip2re n1 n2) ((c0 ++ (pairStr n1 X n2 Y ++ tail)).drop c0.length)
      = some ((pairStr n1 X n2 Y).length,
          [ n1 ++ '=' :: '"' :: X ++ [ '"' ], n2 ++ '=' :: '"' :: Y ++ [ '"' ] ]) := by
    rw [List.drop_left]
    exact matchAt_flip2_pair_tail n1 n2 X Y tail hX hY
  have hs := searchAux_exact (flip2re n1 n2) _ 0 c0.length _ _ h1 h2
  simpa [reSearch] using hs

/-- The flip substitution on a chunks-and-pairs layout: every pair is
swapped and every connecting chunk survives verbatim — the per-occurrence
content of the two-attribute flip rules. -/
theorem pySub_flip2_embedPairs (n1 n2 : List Char) (hn1 : '"' ∉ n1) :
    ∀ (l : List (List Char × List Char × List Char)) (c0 : List Char), '"' ∉ c0 →
    (∀ t ∈ l, '"' ∉ t.1 ∧ '"' ∉ t.2.1 ∧ '"' ∉ t.2.2) →
    pySub (flip2re n1 n2) tmplSwap (embedPairs n1 n2 c0 l)
      = embedPairs n2 n1 c0 (l.map (fun t => (t.2.1, t.1, t.2.2))) := by
  intro l
  induction l with
  | nil =>
    intro c0 hc0 _
    exact pySub_none _ _ _ (reSearch_flip2_noquote n1 n2 c0 hc0)
  | cons hd rest ih =>
    intro c0 hc0 hl
    obtain ⟨X, Y, c⟩ := hd
    obtain ⟨hX, hY, hc⟩ := hl (X, Y, c) (List.mem_cons_self _ _)
    have hl' : ∀ t ∈ rest, '"' ∉ t.1 ∧ '"' ∉ t.2.1 ∧ '"' ∉ t.2.2 :=
      fun t ht => hl t (List.mem_cons_of_mem _ ht)
    have hsearch := reSearch_flip2_embed n1 n2 c0 X Y (embedPairs n1 n2 c rest) hn1 hc0 hX hY
    have hplen : 1 ≤ (pairStr n1 X n2 Y).length := by
      simp [pairStr, List.length_append]
      omega
    show pySub (flip2re n1 n2) tmplSwap
        (c0 ++ (pairStr n1 X n2 Y ++ embedPairs n1 n2 c rest)) = _
    rw [pySub_some _ _ _ c0.length _ _ hsearch hplen, List.take_left]
    have hdrop : (c0 ++ (pairStr n1 X n2 Y ++ embedPairs n1 n2 c rest)).drop
        (c0.length + (pairStr n1 X n2 Y).length) = embedPairs n1 n2 c rest := by
      rw [show c0 ++ (pairStr n1 X n2 Y ++ embedPairs n1 n2 c rest)
          = (c0 ++ pairStr n1 X n2 Y) ++ embedPairs n1 n2 c rest from by simp]
      rw [show c0.length + (pairStr n1 X n2 Y).length
          = (c0 ++ pairStr n1 X n2 Y).length from by simp [List.length_append]]
      exact List.drop_left _ _
    rw [hdrop, ih c hc hl']
    show c0 ++ tmplSwap [ n1 ++ '=' :: '"' :: X ++ [ '"' ], n2 ++ '=' :: '"' :: Y ++ [ '"' ] ]
        ++ embedPairs n2 n1 c (rest.map (fun t => (t.2.1, t.1, t.2.2)))
      = c0 ++ (pairStr n2 Y n1 X
          ++ embedPairs n2 n1 c (rest.map (fun t => (t.2.1, t.1, t.2.2))))
    simp [tmplSwap, pairStr]

/-- A single occurrence embedded in quote-free context: the flip rule swaps
the pair and keeps the context. -/
theorem pySub_flip2_embed_single (n1 n2 pre X Y post : List Char)
    (hn1 : '"' ∉ n1) (hpre : '"' ∉ pre) (hX : '"' ∉ X) (hY : '"' ∉ Y) (hpost : '"' ∉ post) :
    pySub (flip2re n1 n2) tmplSwap (pre ++ pairStr n1 X n2 Y ++ post)
      = pre ++ pairStr n2 Y n1 X ++ post := by
  have hmem : ∀ t ∈ [ (X, Y, post) ], '"' ∉ t.1 ∧ '"' ∉ t.2.1 ∧ '"' ∉ t.2.2 := by
    intro t ht
    rw [List.mem_singleton] at ht
    subst ht
    exact ⟨hX, hY, hpost⟩
  have h := pySub_flip2_embedPairs n1 n2 hn1 [ (X, Y, post) ] pre hpre hmem
  have e1 : embedPairs n1 n2 pre [ (X, Y, post) ] = pre ++ pairStr n1 X n2 Y ++ post := by
    show pre ++ (pairStr n1 X n2 Y ++ post) = _
    simp
  have e2 : embedPairs n2 n1 pre ([ (X, Y, post) ].map (fun t => (t.2.1, t.1, t.2.2)))
      = pre ++ pairStr n2 Y n1 X ++ post := by
    show pre ++ (pairStr n2 Y n1 X ++ post) = _
    simp
  rw [e1, e2] at h
  exact h

/-- A literal sequence is a prefix of itself followed by anything. -/
theorem isPrefixOf_self_append (l t : List Char) : l.isPrefixOf (l ++ t) = true := by
  induction l with
  | nil => simp [List.isPrefixOf]
  | cons c cs ih => simp [List.isPrefixOf, ih]

/-- A suffix of `pre ++ r` never equals the literal `m` when `r` is not a
suffix of `m` and no suffix of `r` equals `m`. -/
theorem drop_append_ne (pre r m : List Char)
    (h1 : r.isSuffixOf m = false)
    (h2 : ∀ j, j ≤ r.length → r.drop j ≠ m) :
    ∀ i, i ≤ (pre ++ r).length → (pre ++ r).drop i ≠ m := by
  intro i hi heq
  by_cases hip : i ≤ pre.length
  · have hdrop : (pre ++ r).drop i = pre.drop i ++ r := List.drop_append_of_le_length hip
    rw [hdrop] at heq
    have hsuf : r.isSuffixOf m = true := by
      rw [← heq]
      show r.reverse.isPrefixOf (pre.drop i ++ r).reverse = true
      rw [List.reverse_append]
      exact isPrefixOf_self_append _ _
    rw [h1] at hsuf
    simp at hsuf
  · push_neg at hip
    have hdrop : (pre ++ r).drop i = r.drop (i - pre.length) := by
      conv_lhs => rw [show i = pre.length + (i - pre.length) from by omega]
      rw [← List.drop_drop, List.drop_left]
    rw [hdrop] at heq
    have hj : i - pre.length ≤ r.length := by
      simp [List.length_append] at hi
      omega
    exact h2 (i - pre.length) hj heq

/-- Embedded-pair shape for the master no-match lemma. -/
theorem pairStr_embed_shape (pre n1 X n2 Y post : List Char) :
    pre ++ pairStr n1 X n2 Y ++ post
      = (pre ++ (n1 ++ [ '=' ]))
        ++ '"' :: (X ++ '"' :: ((' ' :: (n2 ++ [ '=' ])) ++ '"' :: (Y ++ '"' :: post))) := by
  simp [pairStr]

/-- A two-attribute flip pattern `m1=... m2=...` matches nowhere in a
quote-free context around an attribute pair whose first name cannot be
completed to `m1=`. -/
theorem reSearch_flip2_embed_none (m1 m2 n1 X n2 Y pre post : List Char)
    (hX : '"' ∉ X) (hY : '"' ∉ Y) (hn1 : '"' ∉ n1) (hn2 : '"' ∉ n2)
    (hpre : '"' ∉ pre) (hpost : '"' ∉ post)
    (h1 : (n1 ++ [ '=' ]).isSuffixOf (m1 ++ [ '=' ]) = false)
    (h2 : ∀ j, j ≤ (n1 ++ [ '=' ]).length → (n1 ++ [ '=' ]).drop j ≠ m1 ++ [ '=' ]) :
    reSearch (flip2re m1 m2) (pre ++ pairStr n1 X n2 Y ++ post) = none := by
  rw [pairStr_embed_shape]
  refine reSearch_flip2_none m1 m2 (pre ++ (n1 ++ [ '=' ])) X (' ' :: (n2 ++ [ '=' ])) Y post
    ?_ hX ?_ hY hpost (drop_append_ne pre (n1 ++ [ '=' ]) (m1 ++ [ '=' ]) h1 h2)
  · intro hm
    rcases List.mem_append.mp hm with hm | hm
    · exact hpre hm
    · rcases List.mem_append.mp hm with hm | hm
      · exact hn1 hm
      · simp at hm
  · intro hm
    rcases List.mem_cons.mp hm with hm | hm
    · simp at hm
    · rcases List.mem_append.mp hm with hm | hm
      · exact hn2 hm
      · simp at hm

/-- The four-attribute pattern (eight quotes) matches nowhere in a
quote-free context around a single attribute pair (four quotes). -/
theorem reSearch_flip4_embed_none (n1 X n2 Y pre post : List Char)
    (hX : '"' ∉ X) (hY : '"' ∉ Y) (hn1 : '"' ∉ n1) (hn2 : '"' ∉ n2)
    (hpre : '"' ∉ pre) (hpost : '"' ∉ post) :
    reSearch flip_div_attrs_re (pre ++ pairStr n1 X n2 Y ++ post) = none := by
  apply reSearch_flip4_none
  simp [pairStr, List.count_append, List.count_cons, List.count_eq_zero.mpr hX,
    List.count_eq_zero.mpr hY, List.count_eq_zero.mpr hn1, List.count_eq_zero.mpr hn2,
    List.count_eq_zero.mpr hpre, List.count_eq_zero.mpr hpost]

/-- C3: for every browser identity, the Cross-Browser Output Normalizer is
the identity on any string already in canonical attribute order (no flip
pattern has a match). -/
theorem c3_normalizer_canonical_noop (ie edge : Bool) (s : List Char) (h : noFlipMatch s) :
    normalizeData ie edge s = s := by
  obtain ⟨h1, h2, h3, h4⟩ := h
  cases ie with
  | false =>
    cases edge with
    | false => rfl
    | true =>
      show normalizeEdge s = s
      rw [normalizeEdge, pySub_none _ _ _ h1, pySub_none _ _ _ h3, pySub_none _ _ _ h4]
  | true =>
    show normalizeIE s = s
    rw [normalizeIE, pySub_none _ _ _ h1, pySub_none _ _ _ h2, pySub_none _ _ _ h3]

/-- C3 witness: a concrete string in canonical order, under all three
identities. -/
theorem c3_normalizer_canonical_noop_witness :
    normalizeData true false (String.toList "rend=\"b\" style=\"a\"")
        = String.toList "rend=\"b\" style=\"a\"" ∧
    normalizeData false true (String.toList "rend=\"b\" style=\"a\"")
        = String.toList "rend=\"b\" style=\"a\"" ∧
    normalizeData false false (String.toList "rend=\"b\" style=\"a\"")
        = String.toList "rend=\"b\" style=\"a\"" :=
  ⟨c3_normalizer_canonical_noop true false _ (by refine ⟨?_, ?_, ?_, ?_⟩ <;> decide),
   c3_normalizer_canonical_noop false true _ (by refine ⟨?_, ?_, ?_, ?_⟩ <;> decide),
   c3_normalizer_canonical_noop false false _ (by refine ⟨?_, ?_, ?_, ?_⟩ <;> decide)⟩

/-- C4 (amended): the rend/style rule itself rewrites every occurrence of
`style="X" rend="Y"` (quote-free values) in a data string of the
chunks-and-pairs layout (quote-free connecting chunks) to
`rend="Y" style="X"`, keeping every chunk; and within the full IE and Edge
chains a single occurrence embedded in an arbitrary quote-free context is
swapped with the context intact — the later rules of each chain cannot
match around it.  The unrestricted per-occurrence universal of the claim
fails: a later rule of the chain can rewrite across the swapped text (see
the counterexample). -/
theorem c4_rend_style_flip :
    (∀ (c0 : List Char) (l : List (List Char × List Char × List Char)),
      '"' ∉ c0 → (∀ t ∈ l, '"' ∉ t.1 ∧ '"' ∉ t.2.1 ∧ '"' ∉ t.2.2) →
      pySub flip_rend_style_re tmplSwap
          (embedPairs [ 's', 't', 'y', 'l', 'e' ] [ 'r', 'e', 'n', 'd' ] c0 l)
        = embedPairs [ 'r', 'e', 'n', 'd' ] [ 's', 't', 'y', 'l', 'e' ] c0
            (l.map (fun t => (t.2.1, t.1, t.2.2)))) ∧
    (∀ pre X Y post : List Char,
      '"' ∉ pre → '"' ∉ X → '"' ∉ Y → '"' ∉ post →
      normalizeIE (pre ++ pairStr [ 's', 't', 'y', 'l', 'e' ] X [ 'r', 'e', 'n', 'd' ] Y ++ post)
          = pre ++ pairStr [ 'r', 'e', 'n', 'd' ] Y [ 's', 't', 'y', 'l', 'e' ] X ++ post ∧
      normalizeEdge (pre ++ pairStr [ 's', 't', 'y', 'l', 'e' ] X [ 'r', 'e', 'n', 'd' ] Y ++ post)
          = pre ++ pairStr [ 'r', 'e', 'n', 'd' ] Y [ 's', 't', 'y', 'l', 'e' ] X ++ post) := by
  constructor
  · intro c0 l hc0 hl
    exact pySub_flip2_embedPairs _ _ (by decide) l c0 hc0 hl
  · intro pre X Y post hpre hX hY hpost
    have hflip : pySub flip_rend_style_re tmplSwap
        (pre ++ pairStr [ 's', 't', 'y', 'l', 'e' ] X [ 'r', 'e', 'n', 'd' ] Y ++ post)
        = pre ++ pairStr [ 'r', 'e', 'n', 'd' ] Y [ 's', 't', 'y', 'l', 'e' ] X ++ post :=
      pySub_flip2_embed_single _ _ pre X Y post (by decide) hpre hX hY hpost
    have hxm : reSearch flip_xmlns_re
        (pre ++ pairStr [ 'r', 'e', 'n', 'd' ] Y [ 's', 't', 'y', 'l', 'e' ] X ++ post) = none :=
      reSearch_flip2_embed_none _ _ _ Y _ X pre post hY hX (by decide) (by decide)
        hpre hpost (by decide) (by decide)
    have hdiv : reSearch flip_div_attrs_re
        (pre ++ pairStr [ 'r', 'e', 'n', 'd' ] Y [ 's', 't', 'y', 'l', 'e' ] X ++ post) = none :=
      reSearch_flip4_embed_none _ Y _ X pre post hY hX (by decide) (by decide) hpre hpost
    have hmoo : reSearch flip_moo_re
        (pre ++ pairStr [ 'r', 'e', 'n', 'd' ] Y [ 's', 't', 'y', 'l', 'e' ] X ++ post) = none :=
      reSearch_flip2_embed_none _ _ _ Y _ X pre post hY hX (by decide) (by decide)
        hpre hpost (by decide) (by decide)
    constructor
    · rw [normalizeIE, hflip, pySub_none _ _ _ hxm, pySub_none _ _ _ hdiv]
    · rw [normalizeEdge, hflip, pySub_none _ _ _ hdiv, pySub_none _ _ _ hmoo]

/-- C4 witness: the rule-level part on a two-pair document and the
chain-level part on the spec's fixed pair `style="a" rend="b"` embedded in
markup context. -/
theorem c4_rend_style_flip_witness :
    pySub flip_rend_style_re tmplSwap
        (embedPairs [ 's', 't', 'y', 'l', 'e' ] [ 'r', 'e', 'n', 'd' ] (String.toList "<p ")
          [ ([ 'a' ], [ 'b' ], String.toList ">x</p><p "),
            ([ 'c' ], [ 'd' ], String.toList "/>") ])
      = embedPairs [ 'r', 'e', 'n', 'd' ] [ 's', 't', 'y', 'l', 'e' ] (String.toList "<p ")
          [ ([ 'b' ], [ 'a' ], String.toList ">x</p><p "),
            ([ 'd' ], [ 'c' ], String.toList "/>") ] ∧
    normalizeIE (String.toList "<p "
          ++ pairStr [ 's', 't', 'y', 'l', 'e' ] [ 'a' ] [ 'r', 'e', 'n', 'd' ] [ 'b' ]
          ++ String.toList ">x</p>")
      = String.toList "<p "
          ++ pairStr [ 'r', 'e', 'n', 'd' ] [ 'b' ] [ 's', 't', 'y', 'l', 'e' ] [ 'a' ]
          ++ String.toList ">x</p>" := by
  constructor
  · exact c4_rend_style_flip.1 (String.toList "<p ")
      [ ([ 'a' ], [ 'b' ], String.toList ">x</p><p "), ([ 'c' ], [ 'd' ], String.toList "/>") ]
      (by decide) (by decide)
  · exact (c4_rend_style_flip.2 (String.toList "<p ") [ 'a' ] [ 'b' ] (String.toList ">x</p>")
      (by decide) (by decide) (by decide) (by decide)).1

/-- C4 counterexample: the claim's unrestricted universal — in every data
string, every occurrence of `style="X" rend="Y"` (quote-free values) is
rewritten to `rend="Y" style="X"` — fails.  In
`xmlns:math="A" xmlns="Bstyle="U" rend="V"` the IE chain first swaps the
`style`/`rend` occurrence, but the chain's `xmlns` rule then rewrites
across the swapped text, so the output contains no `rend="V" style="U"`. -/
theorem c4_rend_style_flip_cex :
    containsSeq (String.toList "style=\"U\" rend=\"V\"")
        (String.toList "xmlns:math=\"A\" xmlns=\"Bstyle=\"U\" rend=\"V\"") = true ∧
    normalizeIE (String.toList "xmlns:math=\"A\" xmlns=\"Bstyle=\"U\" rend=\"V\"")
        = String.toList "xmlns=\"Brend=\" xmlns:math=\"A\"V\" style=\"U\"" ∧
    containsSeq (String.toList "rend=\"V\" style=\"U\"")
        (normalizeIE (String.toList "xmlns:math=\"A\" xmlns=\"Bstyle=\"U\" rend=\"V\"")) = false := by
  refine ⟨by decide, by decide, by decide⟩

/-- C6 (amended): the moo/MOO rule itself rewrites every occurrence of
`moo="X" MOO="Y"` (quote-free values) in a chunks-and-pairs layout to
`MOO="Y" moo="X"`; and for a single occurrence embedded in an arbitrary
quote-free context, the Edge chain swaps it, the Edge chain leaves the
canonical `MOO="Y" moo="X"` form alone (the names are matched
case-sensitively), and the IE-like and default identities leave the pair
alone.  The unrestricted per-occurrence universal of the claim fails: an
earlier rule of the Edge chain can rewrite across the occurrence before the
moo/MOO rule runs (see the counterexample). -/
theorem c6_moo_flip_edge_only :
    (∀ (c0 : List Char) (l : List (List Char × List Char × List Char)),
      '"' ∉ c0 → (∀ t ∈ l, '"' ∉ t.1 ∧ '"' ∉ t.2.1 ∧ '"' ∉ t.2.2) →
      pySub flip_moo_re tmplSwap
          (embedPairs [ 'm', 'o', 'o' ] [ 'M', 'O', 'O' ] c0 l)
        = embedPairs [ 'M', 'O', 'O' ] [ 'm', 'o', 'o' ] c0
            (l.map (fun t => (t.2.1, t.1, t.2.2)))) ∧
    (∀ pre X Y post : List Char,
      '"' ∉ pre → '"' ∉ X → '"' ∉ Y → '"' ∉ post →
      normalizeData false true (pre ++ pairStr [ 'm', 'o', 'o' ] X [ 'M', 'O', 'O' ] Y ++ post)
          = pre ++ pairStr [ 'M', 'O', 'O' ] Y [ 'm', 'o', 'o' ] X ++ post ∧
      normalizeData false true (pre ++ pairStr [ 'M', 'O', 'O' ] Y [ 'm', 'o', 'o' ] X ++ post)
          = pre ++ pairStr [ 'M', 'O', 'O' ] Y [ 'm', 'o', 'o' ] X ++ post ∧
      normalizeData true false (pre ++ pairStr [ 'm', 'o', 'o' ] X [ 'M', 'O', 'O' ] Y ++ post)
          = pre ++ pairStr [ 'm', 'o', 'o' ] X [ 'M', 'O', 'O' ] Y ++ post ∧
      normalizeData false false (pre ++ pairStr [ 'm', 'o', 'o' ] X [ 'M', 'O', 'O' ] Y ++ post)
          = pre ++ pairStr [ 'm', 'o', 'o' ] X [ 'M', 'O', 'O' ] Y ++ post) := by
  constructor
  · intro c0 l hc0 hl
    exact pySub_flip2_embedPairs _ _ (by decide) l c0 hc0 hl
  · intro pre X Y post hpre hX hY hpost
    have hrs1 : reSearch flip_rend_style_re
        (pre ++ pairStr [ 'm', 'o', 'o' ] X [ 'M', 'O', 'O' ] Y ++ post) = none :=
      reSearch_flip2_embed_none _ _ _ X _ Y pre post hX hY (by decide) (by decide)
        hpre hpost (by decide) (by decide)
    have hrs2 : reSearch flip_rend_style_re
        (pre ++ pairStr [ 'M', 'O', 'O' ] Y [ 'm', 'o', 'o' ] X ++ post) = none :=
      reSearch_flip2_embed_none _ _ _ Y _ X pre post hY hX (by decide) (by decide)
        hpre hpost (by decide) (by decide)
    have hdiv1 : reSearch flip_div_attrs_re
        (pre ++ pairStr [ 'm', 'o', 'o' ] X [ 'M', 'O', 'O' ] Y ++ post) = none :=
      reSearch_flip4_embed_none _ X _ Y pre post hX hY (by decide) (by decide) hpre hpost
    have hdiv2 : reSearch flip_div_attrs_re
        (pre ++ pairStr [ 'M', 'O', 'O' ] Y [ 'm', 'o', 'o' ] X ++ post) = none :=
      reSearch_flip4_embed_none _ Y _ X pre post hY hX (by decide) (by decide) hpre hpost
    have hxm1 : reSearch flip_xmlns_re
        (pre ++ pairStr [ 'm', 'o', 'o' ] X [ 'M', 'O', 'O' ] Y ++ post) = none :=
      reSearch_flip2_embed_none _ _ _ X _ Y pre post hX hY (by decide) (by decide)
        hpre hpost (by decide) (by decide)
    have hmoo2 : reSearch flip_moo_re
        (pre ++ pairStr [ 'M', 'O', 'O' ] Y [ 'm', 'o', 'o' ] X ++ post) = none :=
      reSearch_flip2_embed_none _ _ _ Y _ X pre post hY hX (by decide) (by decide)
        hpre hpost (by decide) (by decide)
    have hswap : pySub flip_moo_re tmplSwap
        (pre ++ pairStr [ 'm', 'o', 'o' ] X [ 'M', 'O', 'O' ] Y ++ post)
        = pre ++ pairStr [ 'M', 'O', 'O' ] Y [ 'm', 'o', 'o' ] X ++ post :=
      pySub_flip2_embed_single _ _ pre X Y post (by decide) hpre hX hY hpost
    refine ⟨?_, ?_, ?_, rfl⟩
    · show normalizeEdge _ = _
      rw [normalizeEdge, pySub_none _ _ _ hrs1, pySub_none _ _ _ hdiv1, hswap]
    · show normalizeEdge _ = _
      rw [normalizeEdge, pySub_none _ _ _ hrs2, pySub_none _ _ _ hdiv2, pySub_none _ _ _ hmoo2]
    · show normalizeIE _ = _
      rw [normalizeIE, pySub_none _ _ _ hrs1, pySub_none _ _ _ hxm1, pySub_none _ _ _ hdiv1]

/-- C6 witness: the rule-level part on a two-pair document and the
chain-level part on `moo="1" MOO="2"` embedded in markup context. -/
theorem c6_moo_flip_edge_only_witness :
    pySub flip_moo_re tmplSwap
        (embedPairs [ 'm', 'o', 'o' ] [ 'M', 'O', 'O' ] (String.toList "<p ")
          [ ([ '1' ], [ '2' ], String.toList ">x</p><p "),
            ([ '3' ], [ '4' ], String.toList "/>") ])
      = embedPairs [ 'M', 'O', 'O' ] [ 'm', 'o', 'o' ] (String.toList "<p ")
          [ ([ '2' ], [ '1' ], String.toList ">x</p><p "),
            ([ '4' ], [ '3' ], String.toList "/>") ] ∧
    normalizeData false true (String.toList "<p "
          ++ pairStr [ 'm', 'o', 'o' ] [ '1' ] [ 'M', 'O', 'O' ] [ '2' ]
          ++ String.toList ">x</p>")
      = String.toList "<p "
          ++ pairStr [ 'M', 'O', 'O' ] [ '2' ] [ 'm', 'o', 'o' ] [ '1' ]
          ++ String.toList ">x</p>" ∧
    normalizeData true false (String.toList "<p "
          ++ pairStr [ 'm', 'o', 'o' ] [ '1' ] [ 'M', 'O', 'O' ] [ '2' ]
          ++ String.toList ">x</p>")
      = String.toList "<p "
          ++ pairStr [ 'm', 'o', 'o' ] [ '1' ] [ 'M', 'O', 'O' ] [ '2' ]
          ++ String.toList ">x</p>" := by
  refine ⟨?_, ?_, ?_⟩
  · exact c6_moo_flip_edge_only.1 (String.toList "<p ")
      [ ([ '1' ], [ '2' ], String.toList ">x</p><p "), ([ '3' ], [ '4' ], String.toList "/>") ]
      (by decide) (by decide)
  · exact (c6_moo_flip_edge_only.2 (String.toList "<p ") [ '1' ] [ '2' ] (String.toList ">x</p>")
      (by decide) (by decide) (by decide) (by decide)).1
  · exact (c6_moo_flip_edge_only.2 (String.toList "<p ") [ '1' ] [ '2' ] (String.toList ">x</p>")
      (by decide) (by decide) (by decide) (by decide)).2.2.1

/-- C6 counterexample: the claim's unrestricted universal — for the
Edge-like identity, every occurrence of `moo="X" MOO="Y"` in every data
string is rewritten to `MOO="Y" moo="X"` — fails.  In
`style="c" rend="d moo="p" MOO="q"` the Edge chain's rend/style rule runs
first and rewrites across the `moo`/`MOO` occurrence, so the moo/MOO rule
never sees it and the output contains no `MOO="q" moo="p"`. -/
theorem c6_moo_flip_edge_only_cex :
    containsSeq (String.toList "moo=\"p\" MOO=\"q\"")
        (String.toList "style=\"c\" rend=\"d moo=\"p\" MOO=\"q\"") = true ∧
    normalizeData false true (String.toList "style=\"c\" rend=\"d moo=\"p\" MOO=\"q\"")
        = String.toList "rend=\"d moo=\" style=\"c\"p\" MOO=\"q\"" ∧
    containsSeq (String.toList "MOO=\"q\" moo=\"p\"")
        (normalizeData false true
          (String.toList "style=\"c\" rend=\"d moo=\"p\" MOO=\"q\"")) = false := by
  refine ⟨by decide, by decide, by decide⟩


/-! ### Dictionary lemmas and the comparison claims -/

/-- Setting a key makes it present. -/
theorem dictMem_set_self (d : Dict) (k : List Char) (v : JVal) :
    dictMem (dictSet d k v) k = true := by
  unfold dictSet
  by_cases h : dictMem d k
  · rw [if_pos h]
    unfold dictMem at h ⊢
    rw [List.any_eq_true] at h ⊢
    obtain ⟨p, hp, hpk⟩ := h
    rw [decide_eq_true_eq] at hpk
    refine ⟨if p.1 = k then (k, v) else p, List.mem_map_of_mem _ hp, ?_⟩
    rw [if_pos hpk]
    simp
  · rw [if_neg h]
    unfold dictMem
    rw [List.any_eq_true]
    exact ⟨(k, v), by simp, by simp⟩

/-- In-place replacement then removal of a key equals plain removal. -/
theorem filter_map_set (d : Dict) (k : List Char) (v : JVal) :
    (d.map (fun p => if p.1 = k then (k, v) else p)).filter (fun p => p.1 ≠ k)
      = d.filter (fun p => p.1 ≠ k) := by
  induction d with
  | nil => rfl
  | cons p ps ih =>
    simp only [List.map_cons, List.filter_cons]
    by_cases hp : p.1 = k
    · rw [if_pos hp]
      simpa [hp] using ih
    · rw [if_neg hp]
      simpa [hp] using ih

/-- Deleting `k` after `d[k] = v` is the same as deleting `k` from `d`. -/
theorem dictErase_set (d : Dict) (k : List Char) (v : JVal) :
    dictErase (dictSet d k v) k = dictErase d k := by
  unfold dictErase dictSet
  by_cases h : dictMem d k
  · rw [if_pos h]
    exact filter_map_set d k v
  · rw [if_neg h, List.filter_append]
    simp

/-- C2: the verdict of `cond` never depends on the value of `version`:
two decoded envelopes that differ only in that value (both containing the
field, here as `d` with `version` set to `v1` resp. `v2`) produce
identical results — `del actual["version"]` erases the difference before
anything else looks at the object. -/
theorem c2_version_noninterference (ie edge : Bool) (expData : List Char)
    (d : Dict) (v1 v2 : JVal) :
    condDict ie edge expData (dictSet d kVersion v1)
      = condDict ie edge expData (dictSet d kVersion v2) := by
  unfold condDict pyDelItem
  rw [dictMem_set_self, dictMem_set_self, dictErase_set, dictErase_set]

/-- C9: when the decoded payload has no `version` field, `cond` raises a
`KeyError` (modelled `none`) instead of producing any verdict. -/
theorem c9_missing_version_raises (ie edge : Bool) (expData : List Char) (d : Dict)
    (h : dictMem d kVersion = false) :
    condDict ie edge expData d = none := by
  simp [condDict, pyDelItem, h]

/-- C9 witness: a payload with `command` and `data` but no `version`. -/
theorem c9_missing_version_raises_witness :
    condDict false false (String.toList "X")
      [ (kCommand, JVal.str (String.toList "save")), (kData, JVal.str (String.toList "X")) ]
      = none :=
  c9_missing_version_raises false false _ _ (by decide)


/-- Lookup on a cons cell. -/
theorem dictLookup_cons (p : List Char × JVal) (ps : Dict) (k : List Char) :
    dictLookup (p :: ps) k = if p.1 = k then some p.2 else dictLookup ps k := by
  unfold dictLookup
  rw [List.find?_cons]
  by_cases h : p.1 = k
  · simp [h]
  · simp [h]

/-- After erasing `k`, looking `k` up fails. -/
theorem dictLookup_erase_self (d : Dict) (k : List Char) :
    dictLookup (dictErase d k) k = none := by
  induction d with
  | nil => rfl
  | cons p ps ih =>
    show dictLookup ((p :: ps).filter (fun p => p.1 ≠ k)) k = none
    rw [List.filter_cons]
    by_cases hp : p.1 = k
    · rw [if_neg (by simp [hp])]
      exact ih
    · rw [if_pos (by simp [hp]), dictLookup_cons, if_neg hp]
      exact ih

/-- Erasing `k` does not change the lookup of any other key. -/
theorem dictLookup_erase_ne (d : Dict) (k k' : List Char) (hne : k' ≠ k) :
    dictLookup (dictErase d k) k' = dictLookup d k' := by
  induction d with
  | nil => rfl
  | cons p ps ih =>
    show dictLookup ((p :: ps).filter (fun p => p.1 ≠ k)) k' = _
    rw [List.filter_cons, dictLookup_cons]
    by_cases hp : p.1 = k
    · rw [if_neg (by simp [hp]), if_neg (by rw [hp]; exact fun hh => hne hh.symm)]
      exact ih
    · rw [if_pos (by simp [hp]), dictLookup_cons]
      by_cases hpk : p.1 = k'
      · rw [if_pos hpk, if_pos hpk]
      · rw [if_neg hpk, if_neg hpk]
        exact ih

/-- Looking up a key distinct from the freshly appended one. -/
theorem dictLookup_append_ne (d : Dict) (k : List Char) (v : JVal) (k' : List Char)
    (hne : k' ≠ k) : dictLookup (d ++ [(k, v)]) k' = dictLookup d k' := by
  induction d with
  | nil =>
    show dictLookup [(k, v)] k' = dictLookup [] k'
    rw [dictLookup_cons, if_neg (fun hh => hne hh.symm)]
  | cons p ps ih =>
    rw [List.cons_append, dictLookup_cons, dictLookup_cons]
    by_cases hpk : p.1 = k'
    · rw [if_pos hpk, if_pos hpk]
    · rw [if_neg hpk, if_neg hpk]
      exact ih

/-- `d[k] = v` does not change the lookup of any other key. -/
theorem dictLookup_set_ne (d : Dict) (k : List Char) (v : JVal) (k' : List Char)
    (hne : k' ≠ k) : dictLookup (dictSet d k v) k' = dictLookup d k' := by
  unfold dictSet
  by_cases h : dictMem d k
  · rw [if_pos h]
    clear h
    induction d with
    | nil => rfl
    | cons p ps ih =>
      rw [List.map_cons, dictLookup_cons, dictLookup_cons]
      by_cases hp : p.1 = k
      · rw [if_pos hp, if_neg (show ¬ (k, v).1 = k' from fun hh => hne hh.symm),
          if_neg (show ¬ p.1 = k' from by rw [hp]; exact fun hh => hne hh.symm)]
        exact ih
      · rw [if_neg hp]
        by_cases hpk : p.1 = k'
        · rw [if_pos hpk, if_pos hpk]
        · rw [if_neg hpk, if_neg hpk]
          exact ih
  · rw [if_neg h]
    exact dictLookup_append_ne d k v k' hne

/-- A successful lookup comes from an entry of the dictionary. -/
theorem dictLookup_some_elim (d : Dict) (k : List Char) (v : JVal)
    (h : dictLookup d k = some v) : ∃ p, p ∈ d ∧ p.1 = k ∧ p.2 = v := by
  induction d with
  | nil => simp [dictLookup] at h
  | cons p ps ih =>
    rw [dictLookup_cons] at h
    by_cases hp : p.1 = k
    · rw [if_pos hp] at h
      injection h with h
      exact ⟨p, List.mem_cons_self p ps, hp, h⟩
    · rw [if_neg hp] at h
      obtain ⟨q, hq, h1, h2⟩ := ih h
      exact ⟨q, List.mem_cons_of_mem p hq, h1, h2⟩

/-- Every entry's key is present. -/
theorem dictMem_of_key (d : Dict) (p : List Char × JVal) (hp : p ∈ d) :
    dictMem d p.1 = true := by
  unfold dictMem
  rw [List.any_eq_true]
  exact ⟨p, hp, by simp⟩

/-- A present key has a successful lookup. -/
theorem dictLookup_isSome_of_mem (d : Dict) (k : List Char) (h : dictMem d k = true) :
    (dictLookup d k).isSome = true := by
  induction d with
  | nil => simp [dictMem] at h
  | cons p ps ih =>
    rw [dictLookup_cons]
    by_cases hp : p.1 = k
    · simp [hp]
    · rw [if_neg hp]
      apply ih
      unfold dictMem at h ⊢
      rw [List.any_cons, Bool.or_eq_true] at h
      rcases h with h | h
      · rw [decide_eq_true_eq] at h
        exact absurd h hp
      · exact h

/-- Python dict equality is extensional: equal dicts have equal lookups at
every key. -/
theorem dictEq_lookup (d e : Dict) (h : dictEq d e = true) (k : List Char) :
    dictLookup d k = dictLookup e k := by
  unfold dictEq at h
  rw [Bool.and_eq_true, List.all_eq_true, List.all_eq_true] at h
  obtain ⟨h1, h2⟩ := h
  cases hd : dictLookup d k with
  | some v =>
    obtain ⟨p, hp, hpk, -⟩ := dictLookup_some_elim d k v hd
    have heq := h1 p hp
    rw [decide_eq_true_eq, hpk] at heq
    rw [hd] at heq
    exact heq.symm
  | none =>
    cases he : dictLookup e k with
    | none => rfl
    | some w =>
      obtain ⟨p, hp, hpk, -⟩ := dictLookup_some_elim e k w he
      have heq := h2 p hp
      rw [decide_eq_true_eq, hpk] at heq
      rw [hd, he] at heq
      exact heq

/-- Lookup in the two-field `expected` object. -/
theorem dictLookup_expected (expData k : List Char) :
    dictLookup (expectedDict expData) k
      = if k = kCommand then some (JVal.str (String.toList "save"))
        else if k = kData then some (JVal.str expData) else none := by
  unfold expectedDict
  rw [dictLookup_cons, dictLookup_cons]
  by_cases h1 : k = kCommand
  · simp [h1]
  · rw [if_neg (fun hh => h1 hh.symm), if_neg h1]
    by_cases h2 : k = kData
    · simp [h2]
    · rw [if_neg (fun hh => h2 hh.symm), if_neg h2]
      rfl

/-- In-place assignment preserves the key set in both directions. -/
theorem dictSet_keys_of_mem (d : Dict) (k : List Char) (v : JVal) (h : dictMem d k = true) :
    (∀ p ∈ dictSet d k v, ∃ q ∈ d, q.1 = p.1) ∧
    (∀ p ∈ d, ∃ q ∈ dictSet d k v, q.1 = p.1) := by
  unfold dictSet
  rw [if_pos h]
  constructor
  · intro p hp
    rw [List.mem_map] at hp
    obtain ⟨q, hq, hfq⟩ := hp
    refine ⟨q, hq, ?_⟩
    by_cases hk : q.1 = k
    · rw [← hfq, if_pos hk, hk]
    · rw [← hfq, if_neg hk]
  · intro p hp
    refine ⟨if p.1 = k then (k, v) else p, List.mem_map_of_mem _ hp, ?_⟩
    by_cases hk : p.1 = k
    · rw [if_pos hk, hk]
    · rw [if_neg hk]

/-- Entries of an erasure are entries of the original. -/
theorem dictErase_subset (d : Dict) (k : List Char) (p : List Char × JVal)
    (hp : p ∈ dictErase d k) : p ∈ d :=
  (List.mem_filter.mp hp).1

/-- Entries with other keys survive an erasure. -/
theorem mem_dictErase_of_ne (d : Dict) (k : List Char) (p : List Char × JVal)
    (hp : p ∈ d) (hne : p.1 ≠ k) : p ∈ dictErase d k :=
  List.mem_filter.mpr ⟨hp, by simp [hne]⟩

/-- What a successful `normStep` does to the object: every key other than
`data` keeps its value, the key set is unchanged, and for the default
identity the object is untouched. -/
theorem normStep_facts (ie edge : Bool) (a1 a2 : Dict) (h : normStep ie edge a1 = some a2) :
    (∀ k, k ≠ kData → dictLookup a2 k = dictLookup a1 k) ∧
    (∀ p ∈ a2, ∃ q ∈ a1, q.1 = p.1) ∧
    (∀ p ∈ a1, ∃ q ∈ a2, q.1 = p.1) ∧
    (ie = false → edge = false → a2 = a1) := by
  unfold normStep at h
  by_cases hmem : dictMem a1 kData
  case neg =>
    rw [if_neg hmem] at h
    injection h with h
    subst h
    exact ⟨fun _ _ => rfl, fun p hp => ⟨p, hp, rfl⟩, fun p hp => ⟨p, hp, rfl⟩, fun _ _ => rfl⟩
  rw [if_pos hmem] at h
  cases ie with
  | true =>
    rw [if_pos rfl] at h
    cases hl : dictLookup a1 kData with
    | none => rw [hl] at h; simp at h
    | some jv =>
      rw [hl] at h
      cases jv with
      | str s =>
        simp only [Option.some.injEq] at h
        subst h
        refine ⟨fun k hk => dictLookup_set_ne a1 kData _ k hk,
          (dictSet_keys_of_mem a1 kData _ hmem).1,
          (dictSet_keys_of_mem a1 kData _ hmem).2,
          fun hie _ => by simp at hie⟩
      | num n => simp at h
      | bool bb => simp at h
      | null => simp at h
  | false =>
    rw [if_neg (by simp)] at h
    cases edge with
    | true =>
      rw [if_pos rfl] at h
      cases hl : dictLookup a1 kData with
      | none => rw [hl] at h; simp at h
      | some jv =>
        rw [hl] at h
        cases jv with
        | str s =>
          simp only [Option.some.injEq] at h
          subst h
          refine ⟨fun k hk => dictLookup_set_ne a1 kData _ k hk,
            (dictSet_keys_of_mem a1 kData _ hmem).1,
            (dictSet_keys_of_mem a1 kData _ hmem).2,
            fun _ hedge => by simp at hedge⟩
        | num n => simp at h
        | bool bb => simp at h
        | null => simp at h
    | false =>
      rw [if_neg (by simp)] at h
      injection h with h
      subst h
      exact ⟨fun _ _ => rfl, fun p hp => ⟨p, hp, rfl⟩, fun p hp => ⟨p, hp, rfl⟩, fun _ _ => rfl⟩

/-- Destructuring a successful run of `cond`: the `version` key was present,
it was deleted, and the normalize step succeeded before the comparison. -/
theorem condDict_some_elim (ie edge : Bool) (expData : List Char) (d : Dict)
    (b : Bool) (a : Dict) (h : condDict ie edge expData d = some (b, a)) :
    dictMem d kVersion = true ∧
    normStep ie edge (dictErase d kVersion) = some a ∧
    b = dictEq a (expectedDict expData) := by
  unfold condDict pyDelItem at h
  by_cases hm : dictMem d kVersion
  · rw [if_pos hm] at h
    have h' : (match normStep ie edge (dictErase d kVersion) with
      | none => none
      | some actual2 => some (dictEq actual2 (expectedDict expData), actual2))
        = some (b, a) := h
    cases hn : normStep ie edge (dictErase d kVersion) with
    | none => rw [hn] at h'; simp at h'
    | some a2 =>
      rw [hn] at h'
      simp only [Option.some.injEq, Prod.mk.injEq] at h'
      obtain ⟨hb, ha⟩ := h'
      subst ha
      exact ⟨hm, rfl, hb.symm⟩
  · rw [if_neg hm] at h
    simp at h


/-- C8: a payload with a `version` field verifies successfully only if,
after deleting `version` and normalizing, it is exactly the two-field
mapping `command = "save", data = expected`: on success, `command` decoded
to `"save"`, `data` was present, and no key beyond `command`, `version`
and `data` existed. -/
theorem c8_exact_two_field_match (ie edge : Bool) (expData : List Char) (d a : Dict)
    (h : condDict ie edge expData d = some (true, a)) :
    dictLookup d kCommand = some (JVal.str (String.toList "save")) ∧
    dictMem d kData = true ∧
    (∀ p ∈ d, p.1 = kCommand ∨ p.1 = kVersion ∨ p.1 = kData) := by
  obtain ⟨hmem, hnorm, hb⟩ := condDict_some_elim ie edge expData d true a h
  have hlook := dictEq_lookup a (expectedDict expData) hb.symm
  obtain ⟨hframe, hkeys1, hkeys2, -⟩ := normStep_facts ie edge _ a hnorm
  have hcmd_ne_data : kCommand ≠ kData := by decide
  have hcmd_ne_ver : kCommand ≠ kVersion := by decide
  refine ⟨?_, ?_, ?_⟩
  · have h1 : dictLookup a kCommand = some (JVal.str (String.toList "save")) := by
      rw [hlook kCommand, dictLookup_expected, if_pos rfl]
    rw [← dictLookup_erase_ne d kVersion kCommand hcmd_ne_ver, ← hframe kCommand hcmd_ne_data]
    exact h1
  · have h1 : dictLookup a kData = some (JVal.str expData) := by
      rw [hlook kData, dictLookup_expected, if_neg (by decide), if_pos rfl]
    obtain ⟨p, hpa, hpk, -⟩ := dictLookup_some_elim a kData _ h1
    obtain ⟨q, hq1, hqk⟩ := hkeys1 p hpa
    have hq_in_d : q ∈ d := dictErase_subset d kVersion q hq1
    have hqmem : dictMem d q.1 = true := dictMem_of_key d q hq_in_d
    rw [hqk, hpk] at hqmem
    exact hqmem
  · intro p hp
    by_cases hver : p.1 = kVersion
    · exact Or.inr (Or.inl hver)
    · have hp1 : p ∈ dictErase d kVersion := mem_dictErase_of_ne d kVersion p hp hver
      obtain ⟨q, hqa, hqk⟩ := hkeys2 p hp1
      have hsome : (dictLookup a q.1).isSome = true :=
        dictLookup_isSome_of_mem a q.1 (dictMem_of_key a q hqa)
      rw [hqk, hlook p.1, dictLookup_expected] at hsome
      by_cases h1 : p.1 = kCommand
      · exact Or.inl h1
      · rw [if_neg h1] at hsome
        by_cases h2 : p.1 = kData
        · exact Or.inr (Or.inr h2)
        · rw [if_neg h2] at hsome
          simp at hsome

/-- C8 witness: the canonical three-field payload verifies, so the
conclusions hold of it. -/
theorem c8_exact_two_field_match_witness :
    dictLookup [ (kCommand, JVal.str (String.toList "save")),
        (kVersion, JVal.str (String.toList "1")),
        (kData, JVal.str (String.toList "X")) ] kCommand
      = some (JVal.str (String.toList "save")) ∧
    dictMem [ (kCommand, JVal.str (String.toList "save")),
        (kVersion, JVal.str (String.toList "1")),
        (kData, JVal.str (String.toList "X")) ] kData = true ∧
    (∀ p ∈ ([ (kCommand, JVal.str (String.toList "save")),
        (kVersion, JVal.str (String.toList "1")),
        (kData, JVal.str (String.toList "X")) ] : Dict),
      p.1 = kCommand ∨ p.1 = kVersion ∨ p.1 = kData) :=
  c8_exact_two_field_match false false (String.toList "X") _
    [ (kCommand, JVal.str (String.toList "save")), (kData, JVal.str (String.toList "X")) ]
    (by decide)

/-- C10: the comparison step mutates only the `data` field: every key other
than `data` and the deleted `version` is compared exactly as decoded, and
for the default identity `data` itself is untouched as well. -/
theorem c10_normalize_frame (ie edge : Bool) (expData : List Char) (d : Dict)
    (b : Bool) (a : Dict) (h : condDict ie edge expData d = some (b, a)) :
    (∀ k, k ≠ kData → k ≠ kVersion → dictLookup a k = dictLookup d k) ∧
    dictLookup a kVersion = none ∧
    (ie = false → edge = false → ∀ k, k ≠ kVersion → dictLookup a k = dictLookup d k) := by
  obtain ⟨hmem, hnorm, -⟩ := condDict_some_elim ie edge expData d b a h
  obtain ⟨hframe, -, -, hdefault⟩ := normStep_facts ie edge _ a hnorm
  refine ⟨?_, ?_, ?_⟩
  · intro k hkd hkv
    rw [hframe k hkd, dictLookup_erase_ne d kVersion k hkv]
  · rw [hframe kVersion (by decide), dictLookup_erase_self]
  · intro hie hedge k hkv
    rw [hdefault hie hedge, dictLookup_erase_ne d kVersion k hkv]

/-- C10 witness: a concrete successful run under the default identity. -/
theorem c10_normalize_frame_witness :
    (∀ k, k ≠ kData → k ≠ kVersion →
      dictLookup [ (kCommand, JVal.str (String.toList "save")),
          (kData, JVal.str (String.toList "q")) ] k
        = dictLookup [ (kVersion, JVal.num 7),
            (kCommand, JVal.str (String.toList "save")),
            (kData, JVal.str (String.toList "q")) ] k) ∧
    dictLookup [ (kCommand, JVal.str (String.toList "save")),
        (kData, JVal.str (String.toList "q")) ] kVersion = none ∧
    (false = false → false = false → ∀ k, k ≠ kVersion →
      dictLookup [ (kCommand, JVal.str (String.toList "save")),
          (kData, JVal.str (String.toList "q")) ] k
        = dictLookup [ (kVersion, JVal.num 7),
            (kCommand, JVal.str (String.toList "save")),
            (kData, JVal.str (String.toList "q")) ] k) :=
  c10_normalize_frame false false (String.toList "q")
    [ (kVersion, JVal.num 7),
      (kCommand, JVal.str (String.toList "save")),
      (kData, JVal.str (String.toList "q")) ] true
    [ (kCommand, JVal.str (String.toList "save")),
      (kData, JVal.str (String.toList "q")) ]
    (by decide)


/-! ### The scenario step and the artifact text -/

/-- C5: an unknown scenario name fails the step at the table lookup, before
any condition evaluation: for every payload stream and timeout, the
outcome is the lookup error with zero condition evaluations — nothing is
fetched and nothing is retried. -/
theorem c5_unknown_scenario_failfast (name : String) (ie edge : Bool)
    (payloads : Nat → Option Dict) (fuel : Nat)
    (h : scenario_to_expected_data name = none) :
    step_data_saved name ie edge payloads fuel = (StepOutcome.scenarioNotFound, 0) := by
  unfold step_data_saved
  rw [h]

/-- C5 witness: a name outside the two-entry table. -/
theorem c5_unknown_scenario_failfast_witness :
    step_data_saved "no such scenario name" false false (fun _ => none) 5
      = (StepOutcome.scenarioNotFound, 0) :=
  c5_unknown_scenario_failfast "no such scenario name" false false (fun _ => none) 5 (by decide)

/-- The fuel of `replaceSepF` is irrelevant once it covers the input. -/
theorem replaceSepF_congr : ∀ (f g : Nat) (s : List Char), s.length ≤ f → s.length ≤ g →
    replaceSepF f s = replaceSepF g s := by
  intro f
  induction f with
  | zero =>
    intro g s hf
    intro hg
    have : s = [] := List.eq_nil_of_length_eq_zero (by omega)
    subst this
    cases g <;> rfl
  | succ f ihf =>
    intro g s hf hg
    cases s with
    | nil => cases g with | zero => rfl | succ g => rfl
    | cons c cs =>
      cases g with
      | zero => simp at hg
      | succ g =>
        simp only [replaceSepF]
        by_cases hp : sepMarker.isPrefixOf (c :: cs) = true
        · rw [if_pos hp, if_pos hp]
          have hf' : cs.length + 1 ≤ f + 1 := by simpa using hf
          have hg' : cs.length + 1 ≤ g + 1 := by simpa using hg
          apply ihf
          · simp [List.length_drop, sepMarker]
            omega
          · simp [List.length_drop, sepMarker]
            omega
        · rw [if_neg hp, if_neg hp]
          rw [ihf g cs (by simp at hf; omega) (by simp at hg; omega)]

/-- One-step unfolding of `replaceSep` when the marker is next. -/
theorem replaceSep_cons_pos (c : Char) (cs : List Char)
    (h : sepMarker.isPrefixOf (c :: cs) = true) :
    replaceSep (c :: cs) = replaceSep ((c :: cs).drop 5) := by
  unfold replaceSep
  rw [show (c :: cs).length = cs.length + 1 from by simp]
  simp only [replaceSepF, h, if_true]
  apply replaceSepF_congr
  · simp [List.length_drop, sepMarker]
  · simp [List.length_drop, sepMarker]

/-- One-step unfolding of `replaceSep` when the marker is not next. -/
theorem replaceSep_cons_neg (c : Char) (cs : List Char)
    (h : sepMarker.isPrefixOf (c :: cs) = false) :
    replaceSep (c :: cs) = c :: replaceSep cs := by
  unfold replaceSep
  rw [show (c :: cs).length = cs.length + 1 from by simp]
  simp only [replaceSepF, h]
  rfl

/-- The marker starts with a newline, so it is no prefix of a string whose
head is something else. -/
theorem sepMarker_head_mismatch (c : Char) (cs : List Char) (hc : c ≠ '\n') :
    sepMarker.isPrefixOf (c :: cs) = false := by
  show ([ '\n', '*', '*', '*', '\n' ] : List Char).isPrefixOf (c :: cs) = false
  simp [List.isPrefixOf]
  intro h
  exact absurd h.symm hc

/-- Marker removal is the identity on newline-free text. -/
theorem replaceSep_no_newline (s : List Char) (hs : '\n' ∉ s) : replaceSep s = s := by
  induction s with
  | nil => rfl
  | cons c cs ih =>
    have hc : c ≠ '\n' := fun hEq => hs (by simp [hEq])
    rw [replaceSep_cons_neg c cs (sepMarker_head_mismatch c cs hc)]
    rw [ih (fun hm => hs (List.mem_cons_of_mem c hm))]

/-- Removing the marker walks over a newline-free chunk, removes the
separator and continues after it — exactly Python's one pass. -/
theorem replaceSep_chunk (c : List Char) (hc : '\n' ∉ c) (z : List Char) :
    replaceSep (c ++ sepMarker ++ z) = c ++ replaceSep z := by
  induction c with
  | nil =>
    show replaceSep (('\n' :: [ '*', '*', '*', '\n' ]) ++ z) = replaceSep z
    rw [show ('\n' :: [ '*', '*', '*', '\n' ]) ++ z = '\n' :: ([ '*', '*', '*', '\n' ] ++ z)
      from rfl]
    rw [replaceSep_cons_pos _ _ (by
      show sepMarker.isPrefixOf (sepMarker ++ z) = true
      exact isPrefixOf_self_append sepMarker z)]
    simp
  | cons x c' ih =>
    have hx : x ≠ '\n' := fun hEq => hc (by simp [hEq])
    have hc' : '\n' ∉ c' := fun hm => hc (List.mem_cons_of_mem x hm)
    show replaceSep (x :: (c' ++ sepMarker ++ z)) = x :: (c' ++ replaceSep z)
    rw [replaceSep_cons_neg _ _ (sepMarker_head_mismatch _ _ hx), ih hc']

/-- Marker removal on a well-formed artifact (newline-free chunks joined by
markers) yields exactly the concatenation of the chunks. -/
theorem replaceSep_interMarker : ∀ (chunks : List (List Char)),
    (∀ c ∈ chunks, '\n' ∉ c) → replaceSep (interMarker chunks) = chunks.flatten := by
  intro chunks
  induction chunks with
  | nil => intro _; rfl
  | cons c rest ih =>
    intro h
    cases rest with
    | nil =>
      show replaceSep c = c ++ List.flatten []
      rw [replaceSep_no_newline c (h c (by simp))]
      simp
    | cons c2 rest2 =>
      show replaceSep (c ++ sepMarker ++ interMarker (c2 :: rest2)) = c ++ (c2 :: rest2).flatten
      rw [replaceSep_chunk c (h c (by simp)) _]
      rw [ih (fun x hx => h x (List.mem_cons_of_mem c hx))]

/-- A newline-free string contains no marker occurrence. -/
theorem containsSeq_sepMarker_no_newline (s : List Char) (hs : '\n' ∉ s) :
    containsSeq sepMarker s = false := by
  induction s with
  | nil => rfl
  | cons c cs ih =>
    have hc : c ≠ '\n' := fun hEq => hs (by simp [hEq])
    show (sepMarker.isPrefixOf (c :: cs) || containsSeq sepMarker cs) = false
    rw [sepMarker_head_mismatch c cs hc, ih (fun hm => hs (List.mem_cons_of_mem c hm))]
    rfl

/-- C7 (amended): for artifacts of the intended layout — payload chunks
free of raw newlines, joined by `'\n***\n'` markers — the single
left-to-right pass of `text.replace` removes every separator, no marker
remains, and trimming then acts on the plain concatenation; removal is
not iterated, so for other inputs a marker can be recreated by
juxtaposition (see the counterexample). -/
theorem c7_marker_removal (chunks : List (List Char)) (h : ∀ c ∈ chunks, '\n' ∉ c) :
    replaceSep (interMarker chunks) = chunks.flatten ∧
    containsSeq sepMarker (replaceSep (interMarker chunks)) = false ∧
    pyStrip (replaceSep (interMarker chunks)) = pyStrip (chunks.flatten) := by
  have h1 := replaceSep_interMarker chunks h
  refine ⟨h1, ?_, by rw [h1]⟩
  rw [h1]
  apply containsSeq_sepMarker_no_newline
  intro hm
  rw [List.mem_flatten] at hm
  obtain ⟨c, hc, hmc⟩ := hm
  exact h c hc hmc

/-- C7 counterexample: the claim as stated — after the replace-and-trim
step every occurrence of the marker is gone — fails: one pass can
juxtapose a new `'\n***\n'`, which survives into the text handed to the
repair and decode stages. -/
theorem c7_marker_removal_cex :
    containsSeq sepMarker
      (pyStrip (replaceSep (String.toList "X\n**\n***\n*\nY"))) = true := by
  decide

/-- C7 witness: a two-chunk artifact in the intended layout. -/
theorem c7_marker_removal_witness :
    replaceSep (interMarker [ [ 'a', 'b' ], [ 'c' ] ]) = [ [ 'a', 'b' ], [ 'c' ] ].flatten ∧
    containsSeq sepMarker (replaceSep (interMarker [ [ 'a', 'b' ], [ 'c' ] ])) = false ∧
    pyStrip (replaceSep (interMarker [ [ 'a', 'b' ], [ 'c' ] ]))
      = pyStrip ([ [ 'a', 'b' ], [ 'c' ] ].flatten) :=
  c7_marker_removal [ [ 'a', 'b' ], [ 'c' ] ] (by decide)

end WedSaving
